import Mathlib

/-!
Verification of the duplicate-file finder (`find_duplicates.py`).

This file gives a shallow embedding, in Lean 4, of the parts of the program
that the specification talks about:

* the metadata store rows (`FileRec`) and the upsert loop
  (`load_file_metadata_records`),
* the lazily checksummed file objects (`FMeta`, embedding class `FileMeta`
  together with the underlying file: its real digests and whether it still
  exists), the checksum engine (`checksum_file`), and the lazy multi-key
  sort of a size class as run by `find_duplicates`,
* the duplicate grouping (`gather_duplicates`) and the classification of a
  group relative to a chosen original (`organize_duplicates`),
* the generic `multikey_sort` routine on pure keys.

Mutable Python objects are modeled by explicit state passing: each method of
`FileMeta` takes the object and returns the value, the updated object and the
number of `checksum_file` / `file_extents` calls it made; exceptions are
modeled with `Except`.  Cryptographic hashing is abstracted: an `FMeta`
carries the digest values that `checksum_file` would return for the three
regions of its file, and the digest of its extent list.  The program only
ever compares digests for equality and sorts by them, so the hexadecimal
digest strings are embedded as values of a computable linearly ordered type
(`Nat`).  Python list sorting (stable) is modeled by `List.insertionSort`,
which is stable.
-/

/-- A row of the `fmeta` table.  Column types follow the schema in
`_create_table_files_sql`; `size` and `inode` are total because every row is
written by `_insert_into_files_sql` or `_update_files_meta_sql`, both of which
set them. -/
structure FileRec where
  path : String
  mtime : String
  size : Nat
  inode : Nat
  checksum_beg : Option Nat
  checksum_end : Option Nat
  checksum_all : Option Nat
  extents_hash : Option Nat
deriving DecidableEq, Repr

/-- Maximal runs of adjacent elements with equal key: the embedding of
`itertools.groupby(lst, key)` (which yields exactly these runs). -/
def groupRuns {α κ : Type} [DecidableEq κ] (key : α → κ) : List α → List (List α)
  | [] => []
  | x :: xs =>
    match groupRuns key xs with
    | [] => [[x]]
    | [] :: gs => [[x]] ++ gs
    | (y :: ys) :: gs =>
      if key x = key y then (x :: y :: ys) :: gs else [x] :: (y :: ys) :: gs

/-- Comparison used for `Option` text columns by the SQL `order by`: SQLite
sorts nulls first, then text ascending. -/
def optLeB : Option Nat → Option Nat → Bool
  | none, _ => true
  | some _, none => false
  | some a, some b => a ≤ b

/-- The `order by size, checksum_beg, checksum_end, checksum_all, inode,
extents_hash, mtime, path` of `_select_duplicate_files_sql`, as a boolean
lexicographic comparison on rows. -/
def dupOrdB (a b : FileRec) : Bool :=
  if a.size ≠ b.size then a.size ≤ b.size
  else if a.checksum_beg ≠ b.checksum_beg then optLeB a.checksum_beg b.checksum_beg
  else if a.checksum_end ≠ b.checksum_end then optLeB a.checksum_end b.checksum_end
  else if a.checksum_all ≠ b.checksum_all then optLeB a.checksum_all b.checksum_all
  else if a.inode ≠ b.inode then a.inode ≤ b.inode
  else if a.extents_hash ≠ b.extents_hash then optLeB a.extents_hash b.extents_hash
  else if a.mtime ≠ b.mtime then a.mtime ≤ b.mtime
  else a.path ≤ b.path

/-- The raw checksum triple of a row, as in `FileMeta.raw_checksums` (the
objects built by `fmeta_objs_from_records` carry the column values). -/
def raw_checksums (r : FileRec) : Option Nat × Option Nat × Option Nat :=
  (r.checksum_beg, r.checksum_end, r.checksum_all)

/-- The grouping key `lambda f: (f.size(), f.raw_checksums())` used by
`gather_duplicates`. -/
def dupKey (r : FileRec) : Nat × (Option Nat × Option Nat × Option Nat) :=
  (r.size, raw_checksums r)

/-- The `where` clause filter of `_select_duplicate_files_sql`: all three
content checksums non-null. -/
def content_resolved (r : FileRec) : Bool :=
  r.checksum_beg.isSome && r.checksum_end.isSome && r.checksum_all.isSome

/-- Optional size bounds added to a query when `min_file_size` or
`max_file_size` is given. -/
def sizeWithin (minS maxS : Option Nat) (n : Nat) : Bool :=
  (match minS with | none => true | some m => m ≤ n) &&
  (match maxS with | none => true | some m => n ≤ m)

/-- Embedding of `gather_duplicates(db, min_file_size, max_file_size)`: the
store is read back filtered by the `where` clause, ordered by the SQL
`order by` (modeled by a stable sort of the row list), the stream is grouped
by `(size, raw_checksums)` with `itertools.groupby`, and only groups with
more than one member are yielded. -/
def gather_duplicates (minS maxS : Option Nat) (store : List FileRec) : List (List FileRec) :=
  let rows := (store.filter (fun r => content_resolved r && sizeWithin minS maxS r.size))
  let ordered := List.insertionSort (fun a b => dupOrdB a b = true) rows
  (groupRuns dupKey ordered).filter (fun g => 1 < g.length)

/-- Python exceptions that the embedded code can raise. -/
inductive PyErr where
  | fileNotFound
  | zeroDivision
  | indexError
deriving DecidableEq, Repr

/-- A `FileMeta` object together with the file behind it.  The `cache_*`
fields are the private memo fields `_checksum_beg`, `_checksum_end`,
`_checksum_all`, `_extents_hash`; `hashed_file` is the `_hashed_file` flag.
The remaining fields stand for the filesystem: `gone` says the path no
longer exists, and `beg_val`, `end_val`, `all_val`, `ext_val` are the digest
strings that `checksum_file` (resp. `file_extents` plus hashing) would
produce for the head region, tail region, whole content and extent list of
the file.  Hashing itself is abstracted by these values. -/
structure FMeta where
  path : String
  mtime : String
  size : Nat
  inode : Nat
  cache_beg : Option Nat
  cache_end : Option Nat
  cache_all : Option Nat
  cache_ext : Option Nat
  hashed_file : Bool
  gone : Bool
  beg_val : Nat
  end_val : Nat
  all_val : Nat
  ext_val : Nat
deriving DecidableEq, Repr

/-- The class attribute `FileMeta.checksum_size` (64 KiB). -/
def checksum_size : Nat := 2 ^ 10 * 64

/-- Embedding of `checksum_file` after a successful `stat`: the function
reduces the offset with `offset % file_size`, which raises
`ZeroDivisionError` when the file size is 0; otherwise it reads the
requested chunk and returns its digest (abstracted as `chunk_digest`). -/
def checksum_file (file_size : Nat) (chunk_digest : Nat) : Except PyErr Nat :=
  if file_size = 0 then .error .zeroDivision else .ok chunk_digest

/-- Method `FileMeta.checksum_beg`.  Returns the memoized digest if present;
otherwise stats the file (raising `FileNotFoundError` if it vanished) and
calls `checksum_file` on the head region, memoizing the result and setting
`_hashed_file`.  The cost pair counts (`checksum_file` calls,
`file_extents` calls). -/
def FMeta.checksum_beg (m : FMeta) : Except PyErr (Nat × FMeta × (Nat × Nat)) :=
  match m.cache_beg with
  | some s => .ok (s, m, (0, 0))
  | none =>
    if m.gone then .error .fileNotFound
    else
      match checksum_file m.size m.beg_val with
      | .error e => .error e
      | .ok s => .ok (s, { m with cache_beg := some s, hashed_file := true }, (1, 0))

/-- Method `FileMeta.checksum_end`: memoized; for a small file
(`size <= checksum_size`) the tail digest is defined to be `checksum_beg()`
(no extra read); otherwise the tail region is read and digested. -/
def FMeta.checksum_end (m : FMeta) : Except PyErr (Nat × FMeta × (Nat × Nat)) :=
  match m.cache_end with
  | some s => .ok (s, m, (0, 0))
  | none =>
    if m.size ≤ checksum_size then
      match m.checksum_beg with
      | .error e => .error e
      | .ok (s, m1, c) => .ok (s, { m1 with cache_end := some s }, c)
    else if m.gone then .error .fileNotFound
    else
      match checksum_file m.size m.end_val with
      | .error e => .error e
      | .ok s => .ok (s, { m with cache_end := some s, hashed_file := true }, (1, 0))

/-- Method `FileMeta.checksum_all`: memoized; for a small file the full
digest is defined to be `checksum_beg()`; otherwise the whole file is read
and digested. -/
def FMeta.checksum_all (m : FMeta) : Except PyErr (Nat × FMeta × (Nat × Nat)) :=
  match m.cache_all with
  | some s => .ok (s, m, (0, 0))
  | none =>
    if m.size ≤ checksum_size then
      match m.checksum_beg with
      | .error e => .error e
      | .ok (s, m1, c) => .ok (s, { m1 with cache_all := some s }, c)
    else if m.gone then .error .fileNotFound
    else
      match checksum_file m.size m.all_val with
      | .error e => .error e
      | .ok s => .ok (s, { m with cache_all := some s, hashed_file := true }, (1, 0))

/-- Method `FileMeta.extents_hash`: memoized; otherwise runs `file_extents`
(`filefrag`) and digests its canonicalized output.  On a vanished file
`filefrag` produces no output and the path stripping indexes an empty list,
so an exception (not `FileNotFoundError`) is raised. -/
def FMeta.extents_hash (m : FMeta) : Except PyErr (Nat × FMeta × (Nat × Nat)) :=
  match m.cache_ext with
  | some s => .ok (s, m, (0, 0))
  | none =>
    if m.gone then .error .indexError
    else .ok (m.ext_val, { m with cache_ext := some m.ext_val, hashed_file := true }, (0, 1))

/-- The four sort keys passed by `find_duplicates` to `multikey_sort`
(as `operator.methodcaller` objects). -/
inductive KeySel where
  | beg
  | end_
  | all
  | ext
deriving DecidableEq, Repr

/-- Calling one of the four methods on an object. -/
def evalKey : KeySel → FMeta → Except PyErr (Nat × FMeta × (Nat × Nat))
  | .beg, m => m.checksum_beg
  | .end_, m => m.checksum_end
  | .all, m => m.checksum_all
  | .ext, m => m.extents_hash

/-- Evaluating a sort key on every element in list order, as
`list.sort(key=...)` does (decorate phase), accumulating costs and raising
the first exception. -/
def evalKeysE (k : KeySel) : List FMeta → Except PyErr (List (Nat × FMeta) × (Nat × Nat))
  | [] => .ok ([], (0, 0))
  | m :: ms =>
    match evalKey k m with
    | .error e => .error e
    | .ok (s, m1, c) =>
      match evalKeysE k ms with
      | .error e => .error e
      | .ok (rest, c2) => .ok ((s, m1) :: rest, (c.1 + c2.1, c.2 + c2.2))

/-- The sort phase of `sort_slice`: a stable sort of the decorated list by
the computed key (Python sorts are stable; `List.insertionSort` is stable). -/
def sortPairs (pairs : List (Nat × FMeta)) : List (Nat × FMeta) :=
  List.insertionSort (fun p q : Nat × FMeta => p.1 ≤ q.1) pairs

/-- The loop of `_multikey_sort` over the runs found by
`itertools.groupby`: a run of more than one element (a tie on the current
key) is passed to the recursive sort `f` with the remaining keys; shorter
runs are left as they are.  Results and costs are concatenated in order,
and an exception from an earlier run takes precedence. -/
def runsFold (f : List FMeta → Except PyErr (List FMeta × (Nat × Nat))) :
    List (List (Nat × FMeta)) → Except PyErr (List FMeta × (Nat × Nat))
  | [] => .ok ([], (0, 0))
  | run :: rest =>
    match (if 1 < run.length then f (run.map Prod.snd)
           else Except.ok (run.map Prod.snd, (0, 0))) with
    | .error e => .error e
    | .ok (ms1, c1) =>
      match runsFold f rest with
      | .error e => .error e
      | .ok (rest1, c2) => .ok (ms1 ++ rest1, (c1.1 + c2.1, c1.2 + c2.2))

/-- Embedding of `_multikey_sort` with the stateful `FileMeta` keys: sort
the list by the first key (evaluating it once per element); with a single
key that is all (`if len(keys) == 1: return`); with more keys, recurse with
the remaining keys on each run of equal key values that has more than one
element.  Returns the reordered objects (with their updated memo fields)
and the accumulated (checksums, extents) cost. -/
def mkSortE : List KeySel → List FMeta → Except PyErr (List FMeta × (Nat × Nat))
  | [], lst => .ok (lst, (0, 0))
  | [k], lst =>
    match evalKeysE k lst with
    | .error e => .error e
    | .ok (pairs, c) => .ok ((sortPairs pairs).map Prod.snd, c)
  | k :: k2 :: ks, lst =>
    match evalKeysE k lst with
    | .error e => .error e
    | .ok (pairs, c) =>
      match runsFold (fun ms => mkSortE (k2 :: ks) ms)
          (groupRuns Prod.fst (sortPairs pairs)) with
      | .error e => .error e
      | .ok (out, c2) => .ok (out, (c.1 + c2.1, c.2 + c2.2))

/-- Embedding of `multikey_sort`: the guard returns immediately on an empty
key list or an empty list. -/
def multikey_sortE (keys : List KeySel) (lst : List FMeta) :
    Except PyErr (List FMeta × (Nat × Nat)) :=
  if keys = [] ∨ lst = [] then .ok (lst, (0, 0)) else mkSortE keys lst

/-- The key list `(checksum_beg, checksum_end, checksum_all, extents_hash)`
used by `find_duplicates`. -/
def fdKeys : List KeySel := [KeySel.beg, KeySel.end_, KeySel.all, KeySel.ext]

/-- The body of the per-size-class loop of `find_duplicates`: a size class
with exactly one file is skipped (`continue`), otherwise it is sorted with
the four lazy checksum keys. -/
def processSizeClassE (files : List FMeta) : Except PyErr (List FMeta × (Nat × Nat)) :=
  if files.length = 1 then .ok (files, (0, 0))
  else multikey_sortE fdKeys files

/-- The private hash tuple `FileMeta.raw_hashes` written back to the store. -/
def FMeta.raw_hashes (m : FMeta) :
    Option Nat × Option Nat × Option Nat × Option Nat :=
  (m.cache_beg, m.cache_end, m.cache_all, m.cache_ext)

/-- The write-back loop at the end of a size class in `find_duplicates`:
every file whose `hashed_file` flag is set has its raw hash tuple written to
the store (`_update_hashes_sql`), keyed by path. -/
def write_digests (files : List FMeta) :
    List (String × (Option Nat × Option Nat × Option Nat × Option Nat)) :=
  (files.filter (fun m => m.hashed_file)).map (fun m => (m.path, m.raw_hashes))

/-- Folding `processSizeClassE` over the size classes of a comparison pass. -/
def processGroups : List (List FMeta) → Except PyErr (List FMeta × (Nat × Nat))
  | [] => .ok ([], (0, 0))
  | g :: gs =>
    match processSizeClassE g with
    | .error e => .error e
    | .ok (g1, c1) =>
      match processGroups gs with
      | .error e => .error e
      | .ok (rest, c2) => .ok (g1 ++ rest, (c1.1 + c2.1, c1.2 + c2.2))

/-- Embedding of the comparison pass of `find_duplicates`: rows are read
ordered by size (modeled by a stable sort on `size`), converted to objects
by `fmeta_objs_from_records` (whose constructor performs no filesystem
access, so its `except FileNotFoundError` never fires and no object is
dropped), grouped by `size()`, and each class is processed in turn.  An
exception raised while checksumming inside a class propagates out of the
pass: it is raised in the consumer of the generator, not inside it. -/
def find_duplicates_pass (fmetas : List FMeta) : Except PyErr (List FMeta × (Nat × Nat)) :=
  let ordered := List.insertionSort (fun a b : FMeta => a.size ≤ b.size) fmetas
  processGroups (groupRuns FMeta.size ordered)

/-- The extents digest value that `m.extents_hash()` compares and returns:
the memoized value if present, otherwise the digest of the extent list.
For a present file the only effect of the call is to fill the memo field
with this same value, so classification can be modeled on values. -/
def eff_ext (m : FMeta) : Nat :=
  m.cache_ext.getD m.ext_val

/-- The loop of `organize_duplicates`.  Python compares objects with `is`
(object identity); since every object yielded by `fmeta_objs_from_records`
is fresh, identity is position in the list, so the loop carries the current
index `i` and the index of the chosen original. -/
def organize_loop (orig : FMeta) (origIdx : Nat) :
    Nat → List FMeta → List FMeta × List FMeta × List FMeta
  | _, [] => ([], [], [])
  | i, dup :: rest =>
    let parts := organize_loop orig origIdx (i + 1) rest
    if i = origIdx then parts
    else if dup.inode = orig.inode then (dup :: parts.1, parts.2.1, parts.2.2)
    else if eff_ext dup = eff_ext orig then (parts.1, dup :: parts.2.1, parts.2.2)
    else (parts.1, parts.2.1, dup :: parts.2.2)

/-- Embedding of `organize_duplicates(duplicates, pick_original, cli_paths)`
with the original already chosen: `pick_original` returns one of the objects
of the group, i.e. the element at some index. -/
def organize_duplicates (dups : List FMeta) (origIdx : Fin dups.length) :
    FMeta × List FMeta × List FMeta × List FMeta :=
  let orig := dups.get origIdx
  (orig, organize_loop orig origIdx.val 0 dups)

/-- Result of one record upsert in `load_file_metadata_records` (which
counts inserts and updates; an untouched record is neither). -/
inductive UpsertResult where
  | Inserted
  | Updated
  | Unchanged
deriving DecidableEq, Repr

/-- A record produced by the directory walk
(`gather_file_metadata_records`): `(size, inode, mtime, path)`. -/
abbrev ScanRec := Nat × Nat × String × String

/-- The path component of a scan record. -/
def recPath (rec : ScanRec) : String := rec.2.2.2

/-- All rows of the store whose `path` column equals `p` (the store is a
list of rows; the table declares `path` as primary key). -/
def lookupPath (store : List FileRec) (p : String) : List FileRec :=
  store.filter (fun r => r.path = p)

/-- The column list `size, inode, mtime, path` selected by
`_select_basic_record_from_files_sql`. -/
def basicTuple (r : FileRec) : ScanRec := (r.size, r.inode, r.mtime, r.path)

/-- Embedding of `_select_basic_record_from_files_sql`. -/
def select_basic (store : List FileRec) (p : String) : List ScanRec :=
  (lookupPath store p).map basicTuple

/-- Embedding of `_insert_into_files_sql`: a fresh row; the four digest
columns are not in the column list, so they default to null. -/
def insertRec (size inode : Nat) (mtime path : String) : FileRec :=
  ⟨path, mtime, size, inode, none, none, none, none⟩

/-- Embedding of `_update_files_meta_sql`: sets `size`, `inode`, `mtime`
and nulls all four digest columns in the same statement. -/
def updateRec (size inode : Nat) (mtime : String) (r : FileRec) : FileRec :=
  { r with
    size := size,
    inode := inode,
    mtime := mtime,
    checksum_beg := none,
    checksum_end := none,
    checksum_all := none,
    extents_hash := none }

/-- One iteration of the loop body of `load_file_metadata_records`: look up
the existing basic record for the path; insert when absent; when present,
update (nulling digests) only if the stored tuple differs from the incoming
record; a path with several rows raises (`BaseException`). -/
def upsert (store : List FileRec) (rec : ScanRec) :
    Except Unit (List FileRec × UpsertResult) :=
  let (size, inode, mtime, path) := rec
  match select_basic store path with
  | [] => .ok (store ++ [insertRec size inode mtime path], .Inserted)
  | [e] =>
    if e = rec then .ok (store, .Unchanged)
    else
      .ok (store.map (fun r => if r.path = path then updateRec size inode mtime r else r),
        .Updated)
  | _ :: _ :: _ => .error ()

/-- The whole record loop of `load_file_metadata_records` over a stream of
scan records (transaction batching only affects commit points, not the
per-record semantics). -/
def load_records : List FileRec → List ScanRec →
    Except Unit (List FileRec × List UpsertResult)
  | store, [] => .ok (store, [])
  | store, rec :: recs =>
    match upsert store rec with
    | .error e => .error e
    | .ok (s1, res) =>
      match load_records s1 recs with
      | .error e => .error e
      | .ok (s2, results) => .ok (s2, res :: results)

/-- Store well-formedness: the `path` primary key is unique. -/
def WFStore (store : List FileRec) : Prop := (store.map FileRec.path).Nodup

/-- Concrete group member used to instantiate the classifier theorem. -/
def c2_orig : FMeta :=
  ⟨"orig", "t0", 100, 7, none, none, none, none, false, false, 1, 2, 3, 4⟩

/-- Concrete group member with the same inode as `c2_orig`. -/
def c2_dup : FMeta :=
  ⟨"dup", "t1", 100, 7, none, none, none, none, false, false, 1, 2, 3, 4⟩

/-- Concrete store row used to instantiate the upsert theorem: a file
recorded with `inode = 5` and cached digests. -/
def c3_store : List FileRec :=
  [⟨"p", "t1", 1000, 5, some 1, some 2, some 3, some 4⟩]

/-- Concrete scan records used to instantiate the idempotence theorem. -/
def c7_recs : List ScanRec := [(1, 2, "ta", "a"), (3, 4, "tb", "b")]

/-- The store produced by scanning `c7_recs` into an empty store. -/
def c7_s1 : List FileRec :=
  [⟨"a", "ta", 1, 2, none, none, none, none⟩,
   ⟨"b", "tb", 3, 4, none, none, none, none⟩]

/-- The head digest value that `m.checksum_beg()` compares and returns for
a present, non-empty file: the memoized value if present, otherwise the
digest of the head region. -/
def effBeg (m : FMeta) : Nat :=
  m.cache_beg.getD m.beg_val

/-- The state of an object after its head digest has been demanded once:
unchanged when memoized, otherwise the memo field is filled and
`_hashed_file` is set. -/
def fillBeg (m : FMeta) : FMeta :=
  match m.cache_beg with
  | some _ => m
  | none => { m with cache_beg := some m.beg_val, hashed_file := true }

/-- Number of `checksum_file` calls a single `checksum_beg()` makes. -/
def begCost (m : FMeta) : Nat :=
  match m.cache_beg with
  | some _ => 0
  | none => 1

/-- Concrete size-class member with head digest distinct from `c4_b`. -/
def c4_a : FMeta :=
  ⟨"fa", "t", 50, 1, none, none, none, none, false, false, 1, 2, 3, 4⟩

/-- Concrete size-class member with head digest distinct from `c4_a`. -/
def c4_b : FMeta :=
  ⟨"fb", "t", 50, 2, none, none, none, none, false, false, 5, 6, 7, 8⟩

/-- Cache states reachable through the store: digests are flushed as the
tuple `raw_hashes`, so for a small file a stored tail or full digest was
derived from the head digest and equals it, and a stored extents digest was
computed only after tail and full were filled (the fourth sort key is
evaluated only on ties of the first three). -/
def Coherent (m : FMeta) : Prop :=
  (m.size ≤ checksum_size →
    (m.cache_end.isSome → m.cache_end = m.cache_beg) ∧
    (m.cache_all.isSome → m.cache_all = m.cache_beg)) ∧
  (m.cache_ext.isSome → m.cache_end.isSome ∧ m.cache_all.isSome)

instance (m : FMeta) : Decidable (Coherent m) := by
  unfold Coherent
  infer_instance

/-- The state of a small file after `checksum_end()` was demanded with the
head digest already memoized: the tail memo is a copy of the head memo. -/
def fillEndS (m : FMeta) : FMeta :=
  match m.cache_end with
  | some _ => m
  | none => { m with cache_end := m.cache_beg }

/-- The state of a small file after `checksum_all()` was demanded with the
head digest already memoized. -/
def fillAllS (m : FMeta) : FMeta :=
  match m.cache_all with
  | some _ => m
  | none => { m with cache_all := m.cache_beg }

/-- The state after `extents_hash()` was demanded on a present file. -/
def fillExt (m : FMeta) : FMeta :=
  match m.cache_ext with
  | some _ => m
  | none => { m with cache_ext := some m.ext_val, hashed_file := true }

/-- Number of `file_extents` calls a single `extents_hash()` makes. -/
def extCost (m : FMeta) : Nat :=
  match m.cache_ext with
  | some _ => 0
  | none => 1

/-- One successful method call on an object, seen as a state transition. -/
def stepRel (m m1 : FMeta) : Prop :=
  ∃ k v c, evalKey k m = .ok (v, m1, c)

/-- Zero or more successful method calls. -/
def evolves : FMeta → FMeta → Prop :=
  Relation.ReflTransGen stepRel

/-- Concrete small file whose head digest is cached from a previous run
but whose tail, full and extents digests are not. -/
def c8_a : FMeta :=
  ⟨"wa", "t", 5, 1, some 7, none, none, none, false, false, 7, 8, 9, 100⟩

/-- Concrete small fresh file with the same head digest as `c8_a`. -/
def c8_b : FMeta :=
  ⟨"wb", "t", 5, 2, none, none, none, none, false, false, 7, 8, 9, 200⟩

/-- The state of `c8_a` after the size class `[c8_a, c8_b]` is sorted. -/
def c8_a4 : FMeta :=
  ⟨"wa", "t", 5, 1, some 7, some 7, some 7, some 100, true, false, 7, 8, 9, 100⟩

/-- The state of `c8_b` after the size class `[c8_a, c8_b]` is sorted. -/
def c8_b4 : FMeta :=
  ⟨"wb", "t", 5, 2, some 7, some 7, some 7, some 200, true, false, 7, 8, 9, 200⟩

/-- Concrete content-resolved rows forming one duplicate group. -/
def c1_r1 : FileRec := ⟨"a", "t", 10, 1, some 1, some 2, some 3, none⟩

/-- Second member of the concrete duplicate group. -/
def c1_r2 : FileRec := ⟨"b", "t", 10, 2, some 1, some 2, some 3, none⟩

/-- Concrete empty file (size 0, no cached digests). -/
def c10_e1 : FMeta :=
  ⟨"u", "t", 0, 1, none, none, none, none, false, false, 1, 2, 3, 4⟩

/-- Second concrete empty file of the same size class. -/
def c10_e2 : FMeta :=
  ⟨"v", "t", 0, 2, none, none, none, none, false, false, 1, 2, 3, 5⟩

/-- Concrete empty file used against the small-file digest claim. -/
def c5_zero : FMeta :=
  ⟨"z", "t", 0, 1, none, none, none, none, false, false, 1, 2, 3, 4⟩

/-- Concrete small fresh file (size 5, nothing cached, present). -/
def c5_small : FMeta :=
  ⟨"s", "t", 5, 1, none, none, none, none, false, false, 1, 2, 3, 4⟩

/-- Concrete present file of a two-element size class. -/
def c6_present : FMeta :=
  ⟨"a", "t", 5, 1, none, none, none, none, false, false, 1, 1, 1, 10⟩

/-- Concrete file of the same size class that vanished after listing:
its row is still in the store but the path no longer exists. -/
def c6_gone : FMeta :=
  ⟨"b", "t", 5, 2, none, none, none, none, false, true, 1, 1, 1, 11⟩

/-- Per-key comparison realized by `lst.sort(key=key, reverse=reverse)` in
`sort_slice`: the stable sort orders by `key` ascending, or descending when
`reverse`, keeping the original order of ties in either direction. -/
def keyLe {α κ : Type} [LinearOrder κ] (k : α → κ) (rev : Bool) (a b : α) : Prop :=
  if rev then k b ≤ k a else k a ≤ k b

instance {α κ : Type} [LinearOrder κ] (k : α → κ) (rev : Bool) :
    DecidableRel (keyLe k rev) := fun a b => by unfold keyLe; infer_instance

instance {α κ : Type} [LinearOrder κ] (k : α → κ) (rev : Bool) :
    IsTotal α (keyLe k rev) :=
  ⟨fun a b => by cases rev <;> simp [keyLe] <;> exact le_total _ _⟩

instance {α κ : Type} [LinearOrder κ] (k : α → κ) (rev : Bool) :
    IsTrans α (keyLe k rev) :=
  ⟨fun a b c hab hbc => by
    cases rev <;> simp [keyLe] at hab hbc ⊢
    · exact le_trans hab hbc
    · exact le_trans hbc hab⟩

/-- Embedding of `sort_slice` over a whole slice (`start = 0`,
`stop = len(lst)`): a stable sort of the list by one key in one
direction. -/
def sort_slice {α κ : Type} [LinearOrder κ] (k : α → κ) (rev : Bool) (l : List α) : List α :=
  List.insertionSort (keyLe k rev) l

/-- Strict per-key comparison in the given direction. -/
def strictKey {α κ : Type} [LinearOrder κ] (k : α → κ) (rev : Bool) (a b : α) : Prop :=
  if rev then k b < k a else k a < k b

instance {α κ : Type} [LinearOrder κ] (k : α → κ) (rev : Bool) :
    DecidableRel (strictKey k rev) := fun a b => by unfold strictKey; infer_instance

/-- One step of a lexicographic tuple comparison: strictly smaller on the
first key (in its direction), or tied on the first key with the comparison
on the remaining keys holding. -/
def lexCons {α κ : Type} [LinearOrder κ] (k : α → κ) (rev : Bool)
    (s : α → α → Prop) (a b : α) : Prop :=
  strictKey k rev a b ∨ (k a = k b ∧ s a b)

instance {α κ : Type} [LinearOrder κ] (k : α → κ) (rev : Bool)
    (s : α → α → Prop) [DecidableRel s] : DecidableRel (lexCons k rev s) :=
  fun a b => by unfold lexCons; infer_instance

/-- The ordering of the specification sentence for `multikey_sort`: a single
comparison by the tuple of all keys, lexicographic, key `i` taken in
direction `i`.  This definition transcribes the claimed ordering, to be
compared against the recursive implementation. -/
def lexLe {α κ : Type} [LinearOrder κ] : List ((α → κ) × Bool) → α → α → Prop
  | [] => fun _ _ => True
  | (k, rev) :: rest => lexCons k rev (lexLe rest)

instance instDecLexLe {α κ : Type} [LinearOrder κ] :
    (krs : List ((α → κ) × Bool)) → DecidableRel (lexLe krs)
  | [] => fun _ _ => .isTrue trivial
  | (k, rev) :: rest =>
    haveI := instDecLexLe rest
    (inferInstance : DecidableRel (lexCons k rev (lexLe rest)))

/-- The loop body of `_multikey_sort`: each maximal run of the sorted slice
that still has more than one member (`group_size > 1`) is sorted recursively
by the remaining keys (`f`); shorter runs are left in place. -/
def runsGo {α : Type} (f : List α → List α) : List (List α) → List α
  | [] => []
  | r :: rs => (if 1 < r.length then f r else r) ++ runsGo f rs

/-- Embedding of `_multikey_sort`, as a pure rendering of the in-place slice
recursion: sort the slice by the first key and direction; if more keys
remain, recurse with them into every maximal run of equal first key that has
more than one member (the runs of `itertools.groupby(..., key=keys[0])`). -/
def multikey_sortAux {α κ : Type} [LinearOrder κ] :
    List ((α → κ) × Bool) → List α → List α
  | [], l => l
  | [(k, rev)], l => sort_slice k rev l
  | (k, rev) :: k2 :: ks, l =>
    runsGo (fun run => multikey_sortAux (k2 :: ks) run) (groupRuns k (sort_slice k rev l))

/-- Directions actually used by `multikey_sort`: a missing or empty
`reverses` argument (`if not reverses`) becomes all-ascending. -/
def effReverses (nkeys : Nat) (reverses : List Bool) : List Bool :=
  if reverses.isEmpty then List.replicate nkeys false else reverses

/-- Embedding of `multikey_sort` over the whole list (`start`/`stop`
defaulted): a no-op when the key list or the input list is empty
(`if not keys or not lst`), otherwise `_multikey_sort` on the keys paired
with their directions. -/
def multikey_sort {α κ : Type} [LinearOrder κ]
    (lst : List α) (keys : List (α → κ)) (reverses : List Bool) : List α :=
  match keys, lst with
  | [], _ => lst
  | _, [] => lst
  | k0 :: ks, x0 :: xs =>
    multikey_sortAux ((k0 :: ks).zip (effReverses (k0 :: ks).length reverses)) (x0 :: xs)

/-- Concatenation of the per-run stable sorts of a grouped list: the shape
of one level of `_multikey_sort` once short runs are also (trivially)
sorted. -/
def sortRuns {α κ : Type} [LinearOrder κ] (k : α → κ) (s : α → α → Prop)
    [DecidableRel s] (S : List α) : List α :=
  ((groupRuns k S).map (List.insertionSort s)).flatten

theorem groupRuns_forall_mem {α κ : Type} [DecidableEq κ] (key : α → κ) :
    ∀ (l : List α) (g : List α), g ∈ groupRuns key l → ∀ a ∈ g, a ∈ l := by
  intro l
  induction l with
  | nil => intro g hg; simp [groupRuns] at hg
  | cons x xs ih =>
    intro g hg a ha
    simp only [groupRuns] at hg
    rcases hrec : groupRuns key xs with - | ⟨g0, gs⟩
    · rw [hrec] at hg
      simp at hg
      subst hg
      simp at ha
      simp [ha]
    · rcases g0 with - | ⟨y, ys⟩
      · rw [hrec] at hg
        simp at hg
        rcases hg with hg | hg
        · subst hg; simp at ha; simp [ha]
        · have := ih g (by rw [hrec]; simp [hg]) a ha
          simp [this]
      · rw [hrec] at hg
        by_cases hk : key x = key y
        · simp [hk] at hg
          rcases hg with hg | hg
          · subst hg
            rcases List.mem_cons.mp ha with rfl | ha
            · simp
            · have : a ∈ xs := ih (y :: ys) (by rw [hrec]; simp) a ha
              simp [this]
          · have := ih g (by rw [hrec]; simp [hg]) a ha
            simp [this]
        · simp [hk] at hg
          rcases hg with hg | hg | hg
          · subst hg; simp at ha; simp [ha]
          · have := ih g (by rw [hrec]; subst hg; simp) a ha
            simp [this]
          · have := ih g (by rw [hrec]; simp [hg]) a ha
            simp [this]

theorem groupRuns_key_const {α κ : Type} [DecidableEq κ] (key : α → κ) :
    ∀ (l : List α) (g : List α), g ∈ groupRuns key l →
      ∀ a ∈ g, ∀ b ∈ g, key a = key b := by
  intro l
  induction l with
  | nil => intro g hg; simp [groupRuns] at hg
  | cons x xs ih =>
    intro g hg a ha b hb
    simp only [groupRuns] at hg
    rcases hrec : groupRuns key xs with - | ⟨g0, gs⟩
    · rw [hrec] at hg
      simp at hg
      subst hg
      simp at ha hb
      rw [ha, hb]
    · rcases g0 with - | ⟨y, ys⟩
      · rw [hrec] at hg
        simp at hg
        rcases hg with hg | hg
        · subst hg; simp at ha hb; rw [ha, hb]
        · exact ih g (by rw [hrec]; simp [hg]) a ha b hb
      · rw [hrec] at hg
        by_cases hk : key x = key y
        · simp [hk] at hg
          rcases hg with hg | hg
          · subst hg
            have hyg : ∀ c ∈ y :: ys, key c = key y := by
              intro c hc
              exact ih (y :: ys) (by rw [hrec]; simp) c hc y (by simp)
            have key_of : ∀ c ∈ x :: y :: ys, key c = key y := by
              intro c hc
              rcases List.mem_cons.mp hc with rfl | hc
              · exact hk
              · exact hyg c hc
            rw [key_of a ha, key_of b hb]
          · exact ih g (by rw [hrec]; simp [hg]) a ha b hb
        · simp [hk] at hg
          rcases hg with hg | hg | hg
          · subst hg; simp at ha hb; rw [ha, hb]
          · exact ih g (by rw [hrec]; subst hg; simp) a ha b hb
          · exact ih g (by rw [hrec]; simp [hg]) a ha b hb

/-- Claim C1: every group emitted by `gather_duplicates` has at least two
members; all members of one group agree exactly on `size`, `checksum_beg`,
`checksum_end` and `checksum_all` (so two records of different sizes are
never grouped together); and every member has all three content digests
present (a record with an absent digest is filtered out by the query and is
in no group). -/
theorem gather_duplicates_group_invariant
    (minS maxS : Option Nat) (store : List FileRec) (g : List FileRec)
    (hg : g ∈ gather_duplicates minS maxS store) :
    2 ≤ g.length ∧
    (∀ a ∈ g, ∀ b ∈ g,
      a.size = b.size ∧ a.checksum_beg = b.checksum_beg ∧
      a.checksum_end = b.checksum_end ∧ a.checksum_all = b.checksum_all) ∧
    (∀ a ∈ g, a.checksum_beg.isSome ∧ a.checksum_end.isSome ∧ a.checksum_all.isSome) := by
  unfold gather_duplicates at hg
  rw [List.mem_filter] at hg
  obtain ⟨hmem, hlen⟩ := hg
  simp only [decide_eq_true_eq] at hlen
  refine ⟨by omega, ?_, ?_⟩
  · intro a ha b hb
    have hk := groupRuns_key_const dupKey _ g hmem a ha b hb
    unfold dupKey raw_checksums at hk
    have h1 : a.size = b.size := congrArg Prod.fst hk
    have h2 := congrArg Prod.snd hk
    simp only [Prod.mk.injEq] at h2
    exact ⟨h1, h2.1, h2.2.1, h2.2.2⟩
  · intro a ha
    have hin := groupRuns_forall_mem dupKey _ g hmem a ha
    have hin2 : a ∈ List.filter (fun r => content_resolved r && sizeWithin minS maxS r.size) store := by
      have hperm := List.perm_insertionSort (fun a b => dupOrdB a b = true)
        (List.filter (fun r => content_resolved r && sizeWithin minS maxS r.size) store)
      exact hperm.mem_iff.mp hin
    have hp := List.of_mem_filter hin2
    simp only [Bool.and_eq_true, content_resolved] at hp
    exact ⟨hp.1.1.1, hp.1.1.2, hp.1.2⟩

theorem organize_loop_perm_above (orig : FMeta) (oI : Nat) :
    ∀ (ds : List FMeta) (i : Nat), oI < i →
      ((organize_loop orig oI i ds).1 ++ (organize_loop orig oI i ds).2.1 ++
        (organize_loop orig oI i ds).2.2).Perm ds := by
  intro ds
  induction ds with
  | nil => intro i _; simp [organize_loop]
  | cons d rest ih =>
    intro i hi
    have hne : i ≠ oI := by omega
    have hrec := ih (i + 1) (by omega)
    simp only [organize_loop, hne, if_false]
    by_cases h1 : d.inode = orig.inode
    · simpa [h1] using hrec.cons d
    · by_cases h2 : eff_ext d = eff_ext orig
      · simp only [h1, if_false, h2, if_true]
        rw [List.append_assoc, List.cons_append]
        refine List.perm_middle.trans (List.Perm.cons d ?_)
        rw [← List.append_assoc]
        exact hrec
      · simp only [h1, if_false, h2, if_false]
        exact List.perm_middle.trans (hrec.cons d)

theorem organize_loop_perm_erase (orig : FMeta) (oI : Nat) :
    ∀ (ds : List FMeta) (i : Nat), i ≤ oI → oI - i < ds.length →
      ((organize_loop orig oI i ds).1 ++ (organize_loop orig oI i ds).2.1 ++
        (organize_loop orig oI i ds).2.2).Perm (ds.eraseIdx (oI - i)) := by
  intro ds
  induction ds with
  | nil => intro i _ h; simp at h
  | cons d rest ih =>
    intro i hle hlt
    by_cases hi : i = oI
    · subst hi
      have e1 : organize_loop orig i i (d :: rest) = organize_loop orig i (i + 1) rest := by
        simp [organize_loop]
      rw [e1, Nat.sub_self]
      exact organize_loop_perm_above orig i rest (i + 1) (by omega)
    · have hlt' : i < oI := by omega
      have hk : oI - i = (oI - (i + 1)) + 1 := by omega
      have hrec := ih (i + 1) (by omega) (by simp at hlt; omega)
      have herase : (d :: rest).eraseIdx (oI - i) = d :: rest.eraseIdx (oI - (i + 1)) := by
        rw [hk]; rfl
      rw [herase]
      simp only [organize_loop, hi, if_false]
      by_cases h1 : d.inode = orig.inode
      · simpa [h1] using hrec.cons d
      · by_cases h2 : eff_ext d = eff_ext orig
        · simp only [h1, if_false, h2, if_true]
          rw [List.append_assoc, List.cons_append]
          refine List.perm_middle.trans (List.Perm.cons d ?_)
          rw [← List.append_assoc]
          exact hrec
        · simp only [h1, if_false, h2, if_false]
          exact List.perm_middle.trans (hrec.cons d)

theorem organize_loop_mem_spec (orig : FMeta) (oI : Nat) :
    ∀ (ds : List FMeta) (i : Nat) (m : FMeta),
      (m ∈ (organize_loop orig oI i ds).1 → m.inode = orig.inode) ∧
      (m ∈ (organize_loop orig oI i ds).2.1 →
        m.inode ≠ orig.inode ∧ eff_ext m = eff_ext orig) ∧
      (m ∈ (organize_loop orig oI i ds).2.2 →
        m.inode ≠ orig.inode ∧ eff_ext m ≠ eff_ext orig) := by
  intro ds
  induction ds with
  | nil => intro i m; simp [organize_loop]
  | cons d rest ih =>
    intro i m
    have hrec := ih (i + 1) m
    by_cases hi : i = oI
    · simpa only [organize_loop, hi, if_true] using hrec
    · simp only [organize_loop, hi, if_false]
      by_cases h1 : d.inode = orig.inode
      · simp only [h1, if_true]
        refine ⟨?_, hrec.2.1, hrec.2.2⟩
        intro hm
        rcases List.mem_cons.mp hm with rfl | hm
        · exact h1
        · exact hrec.1 hm
      · by_cases h2 : eff_ext d = eff_ext orig
        · simp only [h1, if_false, h2, if_true]
          refine ⟨hrec.1, ?_, hrec.2.2⟩
          intro hm
          rcases List.mem_cons.mp hm with rfl | hm
          · exact ⟨h1, h2⟩
          · exact hrec.2.1 hm
        · simp only [h1, if_false, h2]
          refine ⟨hrec.1, hrec.2.1, ?_⟩
          intro hm
          rcases List.mem_cons.mp hm with rfl | hm
          · exact ⟨h1, h2⟩
          · exact hrec.2.2 hm

/-- Claim C2: for a duplicate group and a chosen original (position
`origIdx`), `organize_duplicates` partitions the non-original members:
the concatenation of `hard_links`, `ref_links` and `copies` is a
permutation of the group with the original removed (so the three lists are
pairwise disjoint occurrences and their union is the group minus the
original); a member with the same inode as the original is in
`hard_links`, otherwise one with the same extents digest is in
`ref_links`, and all others are in `copies`; and when the group has at
least two members at least one of the three lists is non-empty. -/
theorem organize_duplicates_classifies (dups : List FMeta) (origIdx : Fin dups.length) :
    (((organize_duplicates dups origIdx).2.1 ++ (organize_duplicates dups origIdx).2.2.1 ++
        (organize_duplicates dups origIdx).2.2.2).Perm (dups.eraseIdx origIdx.val)) ∧
    (∀ m ∈ (organize_duplicates dups origIdx).2.1,
      m.inode = (organize_duplicates dups origIdx).1.inode) ∧
    (∀ m ∈ (organize_duplicates dups origIdx).2.2.1,
      m.inode ≠ (organize_duplicates dups origIdx).1.inode ∧
      eff_ext m = eff_ext (organize_duplicates dups origIdx).1) ∧
    (∀ m ∈ (organize_duplicates dups origIdx).2.2.2,
      m.inode ≠ (organize_duplicates dups origIdx).1.inode ∧
      eff_ext m ≠ eff_ext (organize_duplicates dups origIdx).1) ∧
    (2 ≤ dups.length →
      (organize_duplicates dups origIdx).2.1 ≠ [] ∨
      (organize_duplicates dups origIdx).2.2.1 ≠ [] ∨
      (organize_duplicates dups origIdx).2.2.2 ≠ []) := by
  have hperm := organize_loop_perm_erase (dups.get origIdx) origIdx.val dups 0
    (Nat.zero_le _) (by simp)
  simp only [Nat.sub_zero] at hperm
  refine ⟨hperm, ?_, ?_, ?_, ?_⟩
  · intro m hm
    exact (organize_loop_mem_spec (dups.get origIdx) origIdx.val dups 0 m).1 hm
  · intro m hm
    exact (organize_loop_mem_spec (dups.get origIdx) origIdx.val dups 0 m).2.1 hm
  · intro m hm
    exact (organize_loop_mem_spec (dups.get origIdx) origIdx.val dups 0 m).2.2 hm
  · intro hlen
    have hlen2 := hperm.length_eq
    rw [List.length_eraseIdx] at hlen2
    simp only [origIdx.isLt, if_true] at hlen2
    by_contra hc
    push_neg at hc
    obtain ⟨h1, h2, h3⟩ := hc
    simp only [organize_duplicates] at h1 h2 h3
    rw [h1, h2, h3] at hlen2
    simp at hlen2
    omega

theorem organize_duplicates_classifies_witness :
    (((organize_duplicates [c2_orig, c2_dup] ⟨0, by decide⟩).2.1 ++
        (organize_duplicates [c2_orig, c2_dup] ⟨0, by decide⟩).2.2.1 ++
        (organize_duplicates [c2_orig, c2_dup] ⟨0, by decide⟩).2.2.2).Perm
      ([c2_orig, c2_dup].eraseIdx 0)) ∧
    ((organize_duplicates [c2_orig, c2_dup] ⟨0, by decide⟩).2.1 ≠ [] ∨
      (organize_duplicates [c2_orig, c2_dup] ⟨0, by decide⟩).2.2.1 ≠ [] ∨
      (organize_duplicates [c2_orig, c2_dup] ⟨0, by decide⟩).2.2.2 ≠ []) :=
  ⟨(organize_duplicates_classifies [c2_orig, c2_dup] ⟨0, by decide⟩).1,
    (organize_duplicates_classifies [c2_orig, c2_dup] ⟨0, by decide⟩).2.2.2.2 (by decide)⟩

theorem lookupPath_eq_nil_of_not_mem {store : List FileRec} {p : String}
    (h : p ∉ store.map FileRec.path) : lookupPath store p = [] := by
  unfold lookupPath
  rw [List.filter_eq_nil_iff]
  intro r hr
  simp only [decide_eq_true_eq]
  intro hrp
  exact h (by simpa [hrp] using List.mem_map_of_mem FileRec.path hr)

theorem not_mem_of_lookupPath_eq_nil {store : List FileRec} {p : String}
    (h : lookupPath store p = []) : p ∉ store.map FileRec.path := by
  intro hp
  obtain ⟨r, hr, hrp⟩ := List.mem_map.mp hp
  have : r ∈ lookupPath store p := List.mem_filter.mpr ⟨hr, by simp [hrp]⟩
  rw [h] at this
  simp at this

theorem lookupPath_append (s1 s2 : List FileRec) (p : String) :
    lookupPath (s1 ++ s2) p = lookupPath s1 p ++ lookupPath s2 p :=
  List.filter_append s1 s2

theorem lookupPath_map_pathpres (f : FileRec → FileRec)
    (hf : ∀ r, (f r).path = r.path) (store : List FileRec) (p : String) :
    lookupPath (store.map f) p = (lookupPath store p).map f := by
  induction store with
  | nil => rfl
  | cons r s ih =>
    by_cases hp : r.path = p
    · have h1 : lookupPath (List.map f (r :: s)) p = f r :: lookupPath (List.map f s) p := by
        simp [lookupPath, List.filter_cons, hf r, hp]
      have h2 : lookupPath (r :: s) p = r :: lookupPath s p := by
        simp [lookupPath, List.filter_cons, hp]
      rw [h1, h2, List.map_cons, ih]
    · have h1 : lookupPath (List.map f (r :: s)) p = lookupPath (List.map f s) p := by
        simp [lookupPath, List.filter_cons, hf r, hp]
      have h2 : lookupPath (r :: s) p = lookupPath s p := by
        simp [lookupPath, List.filter_cons, hp]
      rw [h1, h2, ih]

/-- Claim C3: semantics of one upsert into the metadata store.  When no row
exists for the path, a fresh row with all four digest columns null is
appended and afterwards it is the unique row for the path; when a row
exists whose `(size, inode, mtime, path)` tuple differs from the incoming
record, the result is `Updated`, every row for that path now carries the
incoming `size`, `inode`, `mtime` with all four digest fields null, and
rows of other paths are untouched; when the stored tuple is identical the
store is returned entirely unchanged. -/
theorem upsert_semantics (store : List FileRec) (size inode : Nat) (mtime path : String) :
    (select_basic store path = [] →
      upsert store (size, inode, mtime, path) =
        .ok (store ++ [insertRec size inode mtime path], .Inserted) ∧
      lookupPath (store ++ [insertRec size inode mtime path]) path =
        [insertRec size inode mtime path]) ∧
    (∀ e, select_basic store path = [e] → e ≠ (size, inode, mtime, path) →
      upsert store (size, inode, mtime, path) =
        .ok (store.map (fun r => if r.path = path then updateRec size inode mtime r else r),
          .Updated) ∧
      (∀ r ∈ lookupPath
          (store.map (fun r => if r.path = path then updateRec size inode mtime r else r)) path,
        r.size = size ∧ r.inode = inode ∧ r.mtime = mtime ∧
        r.checksum_beg = none ∧ r.checksum_end = none ∧ r.checksum_all = none ∧
        r.extents_hash = none) ∧
      (∀ q, q ≠ path →
        lookupPath
          (store.map (fun r => if r.path = path then updateRec size inode mtime r else r)) q =
        lookupPath store q)) ∧
    (∀ e, select_basic store path = [e] → e = (size, inode, mtime, path) →
      upsert store (size, inode, mtime, path) = .ok (store, .Unchanged)) := by
  have hpres : ∀ r : FileRec,
      ((fun r => if r.path = path then updateRec size inode mtime r else r) r).path = r.path := by
    intro r
    by_cases hp : r.path = path
    · simp [hp, updateRec]
    · simp [hp]
  refine ⟨?_, ?_, ?_⟩
  · intro h
    have hlk : lookupPath store path = [] := by
      have := h
      unfold select_basic at this
      exact List.map_eq_nil_iff.mp this
    constructor
    · simp [upsert, h]
    · rw [lookupPath_append, hlk]
      simp [lookupPath, insertRec]
  · intro e he hne
    refine ⟨by simp [upsert, he, hne], ?_, ?_⟩
    · intro r hr
      rw [lookupPath_map_pathpres _ hpres] at hr
      obtain ⟨r0, hr0, hfr0⟩ := List.mem_map.mp hr
      have hr0p : r0.path = path := by
        simpa using List.of_mem_filter hr0
      rw [← hfr0]
      simp [hr0p, updateRec]
    · intro q hq
      rw [lookupPath_map_pathpres _ hpres]
      have : (lookupPath store q).map
          (fun r => if r.path = path then updateRec size inode mtime r else r) =
          (lookupPath store q).map id := by
        apply List.map_congr_left
        intro r hr
        have hrq : r.path = q := by simpa using List.of_mem_filter hr
        simp [hrq, hq]
      rw [this, List.map_id]
  · intro e he heq
    simp [upsert, he, heq]

theorem upsert_semantics_witness :
    upsert c3_store (2000, 9, "t2", "p") =
      .ok (c3_store.map (fun r => if r.path = "p" then updateRec 2000 9 "t2" r else r),
        .Updated) ∧
    (∀ r ∈ lookupPath
        (c3_store.map (fun r => if r.path = "p" then updateRec 2000 9 "t2" r else r)) "p",
      r.size = 2000 ∧ r.inode = 9 ∧ r.mtime = "t2" ∧
      r.checksum_beg = none ∧ r.checksum_end = none ∧ r.checksum_all = none ∧
      r.extents_hash = none) :=
  have h := (upsert_semantics c3_store 2000 9 "t2" "p").2.1
    (1000, 5, "t1", "p") (by decide) (by decide)
  ⟨h.1, h.2.1⟩

theorem lookupPath_length_le_one {store : List FileRec} (hwf : WFStore store) (p : String) :
    (lookupPath store p).length ≤ 1 := by
  induction store with
  | nil => simp [lookupPath]
  | cons r s ih =>
    have hwf2 : WFStore s := (List.nodup_cons.mp hwf).2
    have hnotin : r.path ∉ s.map FileRec.path := (List.nodup_cons.mp hwf).1
    by_cases hp : r.path = p
    · have hempty : lookupPath s p = [] :=
        lookupPath_eq_nil_of_not_mem (hp ▸ hnotin)
      have h2 : lookupPath (r :: s) p = r :: lookupPath s p := by
        simp [lookupPath, List.filter_cons, hp]
      rw [h2, hempty]
      simp
    · have h2 : lookupPath (r :: s) p = lookupPath s p := by
        simp [lookupPath, List.filter_cons, hp]
      rw [h2]
      exact ih hwf2

theorem map_eq_singleton {α β : Type} (f : α → β) {l : List α} {b : β}
    (h : l.map f = [b]) : ∃ a, l = [a] ∧ f a = b := by
  cases l with
  | nil => simp at h
  | cons x xs =>
    cases xs with
    | nil =>
      simp only [List.map_cons, List.map_nil, List.cons.injEq, and_true] at h
      exact ⟨x, rfl, h⟩
    | cons y ys => simp at h

theorem upsert_wf (store : List FileRec) (rec : ScanRec) (hwf : WFStore store) :
    ∃ s1 res, upsert store rec = .ok (s1, res) ∧ WFStore s1 ∧
      (∃ ex, lookupPath s1 (recPath rec) = [ex] ∧ basicTuple ex = rec) ∧
      (∀ q, q ≠ recPath rec → lookupPath s1 q = lookupPath store q) := by
  obtain ⟨size, inode, mtime, path⟩ := rec
  have hpres : ∀ r : FileRec,
      ((fun r => if r.path = path then updateRec size inode mtime r else r) r).path = r.path := by
    intro r
    by_cases hp : r.path = path
    · simp [hp, updateRec]
    · simp [hp]
  rcases hsel : select_basic store path with - | ⟨e, es⟩
  · have hlk : lookupPath store path = [] := by
      unfold select_basic at hsel
      exact List.map_eq_nil_iff.mp hsel
    have hnot := not_mem_of_lookupPath_eq_nil hlk
    refine ⟨store ++ [insertRec size inode mtime path], .Inserted, by simp [upsert, hsel],
      ?_, ?_, ?_⟩
    · unfold WFStore
      rw [List.map_append, List.nodup_append]
      refine ⟨hwf, by simp [insertRec], ?_⟩
      intro a ha hb
      simp [insertRec] at hb
      subst hb
      exact hnot ha
    · refine ⟨insertRec size inode mtime path, ?_, rfl⟩
      rw [show recPath (size, inode, mtime, path) = path from rfl,
        lookupPath_append, hlk]
      simp [lookupPath, insertRec]
    · intro q hq
      rw [show recPath (size, inode, mtime, path) = path from rfl] at hq
      rw [lookupPath_append]
      have : lookupPath [insertRec size inode mtime path] q = [] := by
        simp [lookupPath, insertRec]
        intro hc
        exact absurd hc.symm hq
      rw [this, List.append_nil]
  · rcases es with - | ⟨e2, es2⟩
    · by_cases heq : e = (size, inode, mtime, path)
      · refine ⟨store, .Unchanged, by simp [upsert, hsel, heq], hwf, ?_, fun q _ => rfl⟩
        unfold select_basic at hsel
        obtain ⟨ex, hex, hbt⟩ := map_eq_singleton basicTuple hsel
        exact ⟨ex, hex, by rw [hbt, heq]⟩
      · refine ⟨store.map (fun r => if r.path = path then updateRec size inode mtime r else r),
          .Updated, by simp [upsert, hsel, heq], ?_, ?_, ?_⟩
        · unfold WFStore
          have hmm : (store.map
              (fun r => if r.path = path then updateRec size inode mtime r else r)).map
              FileRec.path = store.map FileRec.path := by
            rw [List.map_map]
            apply List.map_congr_left
            intro r _
            exact hpres r
          rw [hmm]
          exact hwf
        · unfold select_basic at hsel
          obtain ⟨ex, hex, hbt⟩ := map_eq_singleton basicTuple hsel
          have hexp : ex.path = path := by
            have : ex ∈ lookupPath store path := by rw [hex]; simp
            simpa using List.of_mem_filter this
          refine ⟨updateRec size inode mtime ex, ?_, ?_⟩
          · rw [show recPath (size, inode, mtime, path) = path from rfl,
              lookupPath_map_pathpres _ hpres, hex]
            simp [hexp]
          · simp [basicTuple, updateRec, hexp]
        · intro q hq
          rw [show recPath (size, inode, mtime, path) = path from rfl] at hq
          rw [lookupPath_map_pathpres _ hpres]
          have : (lookupPath store q).map
              (fun r => if r.path = path then updateRec size inode mtime r else r) =
              (lookupPath store q).map id := by
            apply List.map_congr_left
            intro r hr
            have hrq : r.path = q := by simpa using List.of_mem_filter hr
            simp [hrq, hq]
          rw [this, List.map_id]
    · exfalso
      have hl : (select_basic store path).length ≤ 1 := by
        unfold select_basic
        rw [List.length_map]
        exact lookupPath_length_le_one hwf path
      rw [hsel] at hl
      simp at hl

theorem upsert_unchanged_of_lookup {store : List FileRec} {rec : ScanRec} {ex : FileRec}
    (hex : lookupPath store (recPath rec) = [ex]) (hbt : basicTuple ex = rec) :
    upsert store rec = .ok (store, .Unchanged) := by
  obtain ⟨size, inode, mtime, path⟩ := rec
  have hex2 : lookupPath store path = [ex] := hex
  have hsel : select_basic store path = [(size, inode, mtime, path)] := by
    unfold select_basic
    rw [hex2]
    simp [hbt]
  simp [upsert, hsel]

theorem load_records_wf : ∀ (recs : List ScanRec) (store : List FileRec),
    WFStore store → (recs.map recPath).Nodup →
    ∃ s1 res, load_records store recs = .ok (s1, res) ∧ WFStore s1 ∧
      (∀ rec ∈ recs, ∃ ex, lookupPath s1 (recPath rec) = [ex] ∧ basicTuple ex = rec) ∧
      (∀ q, q ∉ recs.map recPath → lookupPath s1 q = lookupPath store q) := by
  intro recs
  induction recs with
  | nil =>
    intro store hwf _
    exact ⟨store, [], rfl, hwf, by simp, fun q _ => rfl⟩
  | cons rec recs ih =>
    intro store hwf hnd
    obtain ⟨s1, res, hup, hwf1, ⟨ex, hex, hbt⟩, hframe1⟩ := upsert_wf store rec hwf
    have hnd2 : (recs.map recPath).Nodup := (List.nodup_cons.mp hnd).2
    have hnotin : recPath rec ∉ recs.map recPath := (List.nodup_cons.mp hnd).1
    obtain ⟨s2, results, hload, hwf2, hall, hframe2⟩ := ih s1 hwf1 hnd2
    refine ⟨s2, res :: results, ?_, hwf2, ?_, ?_⟩
    · simp [load_records, hup, hload]
    · intro r hr
      rcases List.mem_cons.mp hr with rfl | hr
      · exact ⟨ex, by rw [hframe2 _ hnotin]; exact hex, hbt⟩
      · exact hall r hr
    · intro q hq
      have hq1 : q ≠ recPath rec := fun h => hq (by simp [h])
      have hq2 : q ∉ recs.map recPath := fun h => hq (by simp [h])
      rw [hframe2 q hq2, hframe1 q hq1]

theorem load_records_all_unchanged : ∀ (recs : List ScanRec) (store : List FileRec),
    (∀ rec ∈ recs, ∃ ex, lookupPath store (recPath rec) = [ex] ∧ basicTuple ex = rec) →
    load_records store recs = .ok (store, List.replicate recs.length .Unchanged) := by
  intro recs
  induction recs with
  | nil => intro store _; rfl
  | cons rec recs ih =>
    intro store hall
    obtain ⟨ex, hex, hbt⟩ := hall rec (by simp)
    have h1 := upsert_unchanged_of_lookup hex hbt
    have h2 := ih store (fun r hr => hall r (by simp [hr]))
    simp [load_records, h1, h2, List.replicate_succ]

/-- Claim C7: the scan is idempotent.  If a record stream with pairwise
distinct paths is loaded into a well-formed store (unique paths) and
succeeds, then loading the same stream again leaves the store unchanged and
returns `Unchanged` for every record: the second run performs zero updates
and zero inserts. -/
theorem scan_idempotent (store : List FileRec) (recs : List ScanRec)
    (hwf : WFStore store) (hnd : (recs.map recPath).Nodup)
    (s1 : List FileRec) (res1 : List UpsertResult)
    (h1 : load_records store recs = .ok (s1, res1)) :
    load_records s1 recs = .ok (s1, List.replicate recs.length UpsertResult.Unchanged) ∧
    UpsertResult.Updated ∉ List.replicate recs.length UpsertResult.Unchanged := by
  obtain ⟨s1x, resx, hload, hwf1, hall, _⟩ := load_records_wf recs store hwf hnd
  rw [h1] at hload
  have hpair : (s1, res1) = (s1x, resx) := by
    injection hload
  have hs : s1 = s1x := congrArg Prod.fst hpair
  subst hs
  refine ⟨load_records_all_unchanged recs s1 hall, ?_⟩
  intro hmem
  have := (List.mem_replicate.mp hmem).2
  exact absurd this (by decide)

theorem scan_idempotent_witness :
    load_records c7_s1 c7_recs =
      .ok (c7_s1, List.replicate c7_recs.length UpsertResult.Unchanged) ∧
    UpsertResult.Updated ∉ List.replicate c7_recs.length UpsertResult.Unchanged :=
  scan_idempotent [] c7_recs (by simp [WFStore]) (by decide) c7_s1
    [UpsertResult.Inserted, UpsertResult.Inserted] (by rfl)

theorem gather_duplicates_group_invariant_witness :
    2 ≤ [c1_r1, c1_r2].length ∧
    (∀ a ∈ [c1_r1, c1_r2], ∀ b ∈ [c1_r1, c1_r2],
      a.size = b.size ∧ a.checksum_beg = b.checksum_beg ∧
      a.checksum_end = b.checksum_end ∧ a.checksum_all = b.checksum_all) ∧
    (∀ a ∈ [c1_r1, c1_r2],
      a.checksum_beg.isSome ∧ a.checksum_end.isSome ∧ a.checksum_all.isSome) :=
  ⟨by decide,
    (gather_duplicates_group_invariant none none [c1_r1, c1_r2] [c1_r1, c1_r2]
      (by decide)).2.1,
    (gather_duplicates_group_invariant none none [c1_r1, c1_r2] [c1_r1, c1_r2]
      (by decide)).2.2⟩

/-- Claim C10: `checksum_file` is not total at size zero: for a file of 0
bytes the reduction `offset % file_size` divides by zero, so the call
raises instead of returning a digest; consequently a comparison pass whose
store holds a size class of two (or more) empty files aborts with that
error instead of grouping them. -/
theorem checksum_file_zero_size :
    (∀ d : Nat, checksum_file 0 d = .error .zeroDivision) ∧
    (∀ e1 e2 : FMeta, e1.size = 0 → e2.size = 0 →
      e1.cache_beg = none → e1.gone = false →
      find_duplicates_pass [e1, e2] = .error .zeroDivision) := by
  constructor
  · intro d
    rfl
  · intro e1 e2 h1 h2 hb hg
    have hsort : List.insertionSort (fun a b : FMeta => a.size ≤ b.size) [e1, e2] = [e1, e2] := by
      simp [List.insertionSort, List.orderedInsert, h1, h2]
    have hruns : groupRuns FMeta.size [e1, e2] = [[e1, e2]] := by
      simp [groupRuns, h1, h2]
    have hbeg : e1.checksum_beg = .error .zeroDivision := by
      simp [FMeta.checksum_beg, hb, hg, checksum_file, h1]
    show processGroups (groupRuns FMeta.size
      (List.insertionSort (fun a b : FMeta => a.size ≤ b.size) [e1, e2])) =
      Except.error PyErr.zeroDivision
    rw [hsort, hruns]
    simp [processGroups, processSizeClassE, multikey_sortE, fdKeys, mkSortE,
      evalKeysE, evalKey, hbeg]

theorem checksum_file_zero_size_witness :
    checksum_file 0 99 = .error .zeroDivision ∧
    find_duplicates_pass [c10_e1, c10_e2] = .error .zeroDivision :=
  ⟨checksum_file_zero_size.1 99,
    checksum_file_zero_size.2 c10_e1 c10_e2 rfl rfl rfl rfl⟩

theorem small_file_digest_counterexample :
    c5_zero.size ≤ checksum_size ∧
    c5_zero.cache_beg = none ∧ c5_zero.cache_end = none ∧ c5_zero.cache_all = none ∧
    FMeta.checksum_beg c5_zero = .error .zeroDivision ∧
    FMeta.checksum_end c5_zero = .error .zeroDivision ∧
    FMeta.checksum_all c5_zero = .error .zeroDivision :=
  ⟨by decide, rfl, rfl, rfl, rfl, rfl, rfl⟩

/-- Claim C5 (amended to positive sizes): for a file of positive size at
most the checksum region size, with nothing cached, the head, tail and full
digests are all equal (to the head-region digest) and are produced by a
single `checksum_file` call: computing the head costs one read, and the
subsequent tail and full digests cost zero further reads. -/
theorem small_file_single_checksum (m : FMeta) (hg : m.gone = false)
    (hs : 0 < m.size) (hsmall : m.size ≤ checksum_size)
    (hb : m.cache_beg = none) (he : m.cache_end = none) (ha : m.cache_all = none) :
    ∃ m1 m2 m3,
      m.checksum_beg = .ok (m.beg_val, m1, (1, 0)) ∧
      m1.checksum_end = .ok (m.beg_val, m2, (0, 0)) ∧
      m2.checksum_all = .ok (m.beg_val, m3, (0, 0)) := by
  have hnz : m.size ≠ 0 := by omega
  refine ⟨{ m with
      cache_beg := some m.beg_val,
      hashed_file := true },
    { m with
      cache_beg := some m.beg_val,
      hashed_file := true,
      cache_end := some m.beg_val },
    { m with
      cache_beg := some m.beg_val,
      hashed_file := true,
      cache_end := some m.beg_val,
      cache_all := some m.beg_val }, ?_, ?_, ?_⟩
  · simp [FMeta.checksum_beg, hb, hg, checksum_file, hnz]
  · simp [FMeta.checksum_end, FMeta.checksum_beg, he, hsmall]
  · simp [FMeta.checksum_all, FMeta.checksum_beg, ha, hsmall]

theorem small_file_single_checksum_witness :
    ∃ m1 m2 m3,
      c5_small.checksum_beg = .ok (c5_small.beg_val, m1, (1, 0)) ∧
      m1.checksum_end = .ok (c5_small.beg_val, m2, (0, 0)) ∧
      m2.checksum_all = .ok (c5_small.beg_val, m3, (0, 0)) :=
  small_file_single_checksum c5_small rfl (by decide) (by decide) rfl rfl rfl

/-- Claim C6 is violated by the code: when a file of a multi-member size
class vanishes between listing and digesting, the `FileNotFoundError`
raised by `os.stat` inside `checksum_beg` is raised in the consumer of the
`fmeta_objs_from_records` generator (the sort inside `find_duplicates`),
not inside the generator, so the `except FileNotFoundError` there cannot
catch it: the whole comparison pass aborts instead of dropping the record
and grouping the remaining members. -/
theorem vanished_file_aborts_pass :
    find_duplicates_pass [c6_present, c6_gone] = .error .fileNotFound := by
  rfl

theorem evalKey_beg_ok (m : FMeta)
    (h : m.cache_beg = none → m.gone = false ∧ 0 < m.size) :
    evalKey .beg m = .ok (effBeg m, fillBeg m, (begCost m, 0)) := by
  rcases hc : m.cache_beg with _ | s
  · obtain ⟨hg, hs⟩ := h hc
    have hnz : m.size ≠ 0 := by omega
    simp [evalKey, FMeta.checksum_beg, hc, hg, checksum_file, hnz, effBeg, fillBeg, begCost]
  · simp [evalKey, FMeta.checksum_beg, hc, effBeg, fillBeg, begCost]

theorem evalKeysE_beg_ok : ∀ lst : List FMeta,
    (∀ m ∈ lst, m.cache_beg = none → m.gone = false ∧ 0 < m.size) →
    evalKeysE .beg lst =
      .ok (lst.map (fun m => (effBeg m, fillBeg m)),
        (lst.countP (fun m => m.cache_beg.isNone), 0)) := by
  intro lst
  induction lst with
  | nil => intro _; rfl
  | cons m ms ih =>
    intro h
    have h1 := evalKey_beg_ok m (h m (by simp))
    have h2 := ih (fun x hx => h x (by simp [hx]))
    simp only [evalKeysE, h1, h2, List.map_cons, List.countP_cons]
    rcases hc : m.cache_beg with _ | s
    · simp [begCost, hc]
      omega
    · simp [begCost, hc]

theorem groupRuns_of_nodup_keys {α κ : Type} [DecidableEq κ] (key : α → κ) :
    ∀ l : List α, (l.map key).Nodup → groupRuns key l = l.map (fun a => [a]) := by
  intro l
  induction l with
  | nil => intro _; rfl
  | cons x xs ih =>
    intro hnd
    have hnd2 : (xs.map key).Nodup := (List.nodup_cons.mp hnd).2
    have hx : key x ∉ xs.map key := (List.nodup_cons.mp hnd).1
    have hrec := ih hnd2
    cases xs with
    | nil => rfl
    | cons y ys =>
      have hne : key x ≠ key y := by
        intro hc
        exact hx (by simp [hc])
      have hunfold : groupRuns key (x :: y :: ys) =
          match groupRuns key (y :: ys) with
          | [] => [[x]]
          | [] :: gs => [[x]] ++ gs
          | (z :: zs) :: gs =>
            if key x = key z then (x :: z :: zs) :: gs else [x] :: (z :: zs) :: gs := rfl
      rw [hunfold, hrec]
      simp [hne]

theorem runsFold_singletons (f : List FMeta → Except PyErr (List FMeta × (Nat × Nat))) :
    ∀ pairs : List (Nat × FMeta),
      runsFold f (pairs.map (fun p => [p])) = .ok (pairs.map Prod.snd, (0, 0)) := by
  intro pairs
  induction pairs with
  | nil => rfl
  | cons p ps ih =>
    simp [runsFold, ih]

/-- Claim C4: checksum economy of a comparison pass.  A size class with
exactly one record is skipped and costs zero checksum computations.  A
size class (of two or more records, each either already carrying a cached
head digest or present and non-empty) whose members have pairwise distinct
head digests costs exactly one `checksum_file` call for each member whose
head digest was not cached — at most one head digest per member — and zero
extents computations; the resulting objects are exactly the inputs with
only the head digest memoized, so no tail, full, or extents digest is ever
computed for such a class. -/
theorem size_class_checksum_costs :
    (∀ files : List FMeta, files.length = 1 →
      processSizeClassE files = .ok (files, (0, 0))) ∧
    (∀ files : List FMeta, 2 ≤ files.length →
      (∀ m ∈ files, m.cache_beg = none → m.gone = false ∧ 0 < m.size) →
      (files.map effBeg).Nodup →
      ∃ out, processSizeClassE files =
          .ok (out, (files.countP (fun m => m.cache_beg.isNone), 0)) ∧
        out.Perm (files.map fillBeg)) := by
  constructor
  · intro files h
    simp [processSizeClassE, h]
  · intro files hlen hp hnd
    have hEval := evalKeysE_beg_ok files hp
    have hfst : (files.map (fun m => (effBeg m, fillBeg m))).map Prod.fst =
        files.map effBeg := by
      rw [List.map_map]
      rfl
    have hsortperm : (sortPairs (files.map (fun m => (effBeg m, fillBeg m)))).Perm
        (files.map (fun m => (effBeg m, fillBeg m))) :=
      List.perm_insertionSort _ _
    have hndk : ((sortPairs (files.map (fun m => (effBeg m, fillBeg m)))).map
        Prod.fst).Nodup := by
      rw [(hsortperm.map Prod.fst).nodup_iff, hfst]
      exact hnd
    have hruns := groupRuns_of_nodup_keys Prod.fst _ hndk
    have hstep : mkSortE fdKeys files =
        .ok ((sortPairs (files.map (fun m => (effBeg m, fillBeg m)))).map Prod.snd,
          (files.countP (fun m => m.cache_beg.isNone), 0)) := by
      show mkSortE (KeySel.beg :: KeySel.end_ :: [KeySel.all, KeySel.ext]) files = _
      simp [mkSortE, hEval, hruns, runsFold_singletons]
    have hne1 : files.length ≠ 1 := by omega
    have hne : files ≠ [] := by
      intro h
      subst h
      simp at hlen
    refine ⟨(sortPairs (files.map (fun m => (effBeg m, fillBeg m)))).map Prod.snd, ?_, ?_⟩
    · simp [processSizeClassE, hne1, multikey_sortE, fdKeys, hne]
      show mkSortE fdKeys files = _
      exact hstep
    · have := hsortperm.map Prod.snd
      rw [List.map_map] at this
      exact this

theorem size_class_checksum_costs_witness :
    processSizeClassE [c4_a] = .ok ([c4_a], (0, 0)) ∧
    (∃ out, processSizeClassE [c4_a, c4_b] =
        .ok (out, ([c4_a, c4_b].countP (fun m => m.cache_beg.isNone), 0)) ∧
      out.Perm ([c4_a, c4_b].map fillBeg)) :=
  ⟨size_class_checksum_costs.1 [c4_a] (by decide),
    size_class_checksum_costs.2 [c4_a, c4_b] (by decide)
      (by intro m hm hc; constructor <;> (fin_cases hm <;> decide))
      (by decide)⟩

theorem write_digests_mem {out : List FMeta} {m1 : FMeta}
    (hm : m1 ∈ out) (hh : m1.hashed_file = true) :
    (m1.path, FMeta.raw_hashes m1) ∈ write_digests out := by
  unfold write_digests
  exact List.mem_map_of_mem _ (List.mem_filter.mpr ⟨hm, by simp [hh]⟩)

theorem fillBeg_cache (m : FMeta) : (fillBeg m).cache_beg = some (effBeg m) := by
  rcases hc : m.cache_beg with _ | s <;> simp [fillBeg, effBeg, hc]

theorem fillBeg_fields (m : FMeta) :
    (fillBeg m).path = m.path ∧ (fillBeg m).size = m.size ∧
    (fillBeg m).gone = m.gone ∧ (fillBeg m).cache_end = m.cache_end ∧
    (fillBeg m).cache_all = m.cache_all ∧ (fillBeg m).cache_ext = m.cache_ext := by
  rcases hc : m.cache_beg with _ | s <;> simp [fillBeg, hc]

theorem fillEndS_fields (m : FMeta) :
    (fillEndS m).path = m.path ∧ (fillEndS m).size = m.size ∧
    (fillEndS m).gone = m.gone ∧ (fillEndS m).cache_beg = m.cache_beg ∧
    (fillEndS m).cache_all = m.cache_all ∧ (fillEndS m).cache_ext = m.cache_ext ∧
    (fillEndS m).hashed_file = m.hashed_file := by
  rcases hc : m.cache_end with _ | s <;> simp [fillEndS, hc]

theorem fillAllS_fields (m : FMeta) :
    (fillAllS m).path = m.path ∧ (fillAllS m).size = m.size ∧
    (fillAllS m).gone = m.gone ∧ (fillAllS m).cache_beg = m.cache_beg ∧
    (fillAllS m).cache_end = m.cache_end ∧ (fillAllS m).cache_ext = m.cache_ext ∧
    (fillAllS m).hashed_file = m.hashed_file := by
  rcases hc : m.cache_all with _ | s <;> simp [fillAllS, hc]

theorem fillExt_fields (m : FMeta) :
    (fillExt m).path = m.path ∧ (fillExt m).size = m.size ∧
    (fillExt m).gone = m.gone ∧ (fillExt m).cache_beg = m.cache_beg ∧
    (fillExt m).cache_end = m.cache_end ∧ (fillExt m).cache_all = m.cache_all := by
  rcases hc : m.cache_ext with _ | s <;> simp [fillExt, hc]

theorem evalKey_end_small (m : FMeta) (v : Nat)
    (hsmall : m.size ≤ checksum_size) (hb : m.cache_beg = some v)
    (he : m.cache_end.isSome → m.cache_end = some v) :
    evalKey .end_ m = .ok (v, fillEndS m, (0, 0)) := by
  rcases hc : m.cache_end with _ | s
  · simp [evalKey, FMeta.checksum_end, hc, hsmall, FMeta.checksum_beg, hb, fillEndS]
  · have hs : some s = some v := by rw [← hc]; exact he (by simp [hc])
    injection hs with hs
    subst hs
    simp [evalKey, FMeta.checksum_end, hc, fillEndS]

theorem evalKey_all_small (m : FMeta) (v : Nat)
    (hsmall : m.size ≤ checksum_size) (hb : m.cache_beg = some v)
    (ha : m.cache_all.isSome → m.cache_all = some v) :
    evalKey .all m = .ok (v, fillAllS m, (0, 0)) := by
  rcases hc : m.cache_all with _ | s
  · simp [evalKey, FMeta.checksum_all, hc, hsmall, FMeta.checksum_beg, hb, fillAllS]
  · have hs : some s = some v := by rw [← hc]; exact ha (by simp [hc])
    injection hs with hs
    subst hs
    simp [evalKey, FMeta.checksum_all, hc, fillAllS]

theorem evalKey_ext_ok (m : FMeta) (hg : m.gone = false) :
    evalKey .ext m = .ok (eff_ext m, fillExt m, (0, extCost m)) := by
  rcases hc : m.cache_ext with _ | s <;>
    simp [evalKey, FMeta.extents_hash, hc, hg, eff_ext, fillExt, extCost]

theorem evalKeysE_of_pointwise (k : KeySel) (val : FMeta → Nat) (fill : FMeta → FMeta) :
    ∀ lst : List FMeta, (∀ m ∈ lst, ∃ c, evalKey k m = .ok (val m, fill m, c)) →
      ∃ c, evalKeysE k lst = .ok (lst.map (fun m => (val m, fill m)), c) := by
  intro lst
  induction lst with
  | nil => intro _; exact ⟨(0, 0), rfl⟩
  | cons m ms ih =>
    intro h
    obtain ⟨c1, h1⟩ := h m (by simp)
    obtain ⟨c2, h2⟩ := ih (fun x hx => h x (by simp [hx]))
    exact ⟨(c1.1 + c2.1, c1.2 + c2.2), by simp [evalKeysE, h1, h2]⟩

theorem groupRuns_const {α κ : Type} [DecidableEq κ] (key : α → κ) (v : κ) :
    ∀ l : List α, l ≠ [] → (∀ a ∈ l, key a = v) → groupRuns key l = [l] := by
  intro l
  induction l with
  | nil => intro h _; exact absurd rfl h
  | cons x xs ih =>
    intro _ hall
    cases xs with
    | nil => rfl
    | cons y ys =>
      have hrec : groupRuns key (y :: ys) = [y :: ys] :=
        ih (by simp) (fun a ha => hall a (by simp [ha]))
      have hunfold : groupRuns key (x :: y :: ys) =
          match groupRuns key (y :: ys) with
          | [] => [[x]]
          | [] :: gs => [[x]] ++ gs
          | (z :: zs) :: gs =>
            if key x = key z then (x :: z :: zs) :: gs else [x] :: (z :: zs) :: gs := rfl
      rw [hunfold, hrec]
      have hx : key x = v := hall x (by simp)
      have hy : key y = v := hall y (by simp)
      simp [hx, hy]

theorem insertionSort_of_all_rel (r : α → α → Prop) [DecidableRel r] :
    ∀ l : List α, (∀ a ∈ l, ∀ b ∈ l, r a b) → List.insertionSort r l = l := by
  intro l
  induction l with
  | nil => intro _; rfl
  | cons x xs ih =>
    intro h
    have hxs : List.insertionSort r xs = xs :=
      ih (fun a ha b hb => h a (by simp [ha]) b (by simp [hb]))
    show List.orderedInsert r x (List.insertionSort r xs) = x :: xs
    rw [hxs]
    cases xs with
    | nil => rfl
    | cons y ys =>
      have hr : r x y := h x (by simp) y (by simp)
      simp [List.orderedInsert, hr]

theorem mkSortE_const_step (k k2 : KeySel) (ks : List KeySel) (v : Nat)
    (fill : FMeta → FMeta) (lst : List FMeta) (hlen : 2 ≤ lst.length)
    (hpt : ∀ m ∈ lst, ∃ c, evalKey k m = .ok (v, fill m, c))
    (out2 : List FMeta) (c2 : Nat × Nat)
    (hrec : mkSortE (k2 :: ks) (lst.map fill) = .ok (out2, c2)) :
    ∃ c3, mkSortE (k :: k2 :: ks) lst = .ok (out2, c3) := by
  obtain ⟨c1, hEval⟩ := evalKeysE_of_pointwise k (fun _ => v) fill lst hpt
  have hsorted : sortPairs (lst.map (fun m => (v, fill m))) =
      lst.map (fun m => (v, fill m)) := by
    apply insertionSort_of_all_rel
    intro a ha b hb
    obtain ⟨ma, _, rfl⟩ := List.mem_map.mp ha
    obtain ⟨mb, _, rfl⟩ := List.mem_map.mp hb
    exact le_refl v
  have hne : lst.map (fun m => (v, fill m)) ≠ [] := by
    intro h
    rw [List.map_eq_nil_iff] at h
    subst h
    simp at hlen
  have hruns : groupRuns Prod.fst (lst.map (fun m => (v, fill m))) =
      [lst.map (fun m => (v, fill m))] := by
    apply groupRuns_const _ v _ hne
    intro a ha
    obtain ⟨m, _, rfl⟩ := List.mem_map.mp ha
    rfl
  have hlen2 : 1 < (lst.map (fun m => (v, fill m))).length := by
    simp only [List.length_map]
    omega
  have hsnd : (lst.map (fun m => (v, fill m))).map Prod.snd = lst.map fill := by
    rw [List.map_map]
    rfl
  have hlst : 1 < lst.length := by omega
  refine ⟨(c1.1 + c2.1, c1.2 + c2.2), ?_⟩
  simp only [mkSortE, hEval, hsorted, hruns]
  simp [runsFold, hlen2, hsnd, hrec, hlst]

theorem mkSortE_ext (lst : List FMeta) (hg : ∀ m ∈ lst, m.gone = false) :
    ∃ out c, mkSortE [KeySel.ext] lst = .ok (out, c) ∧
      out.Perm (lst.map fillExt) := by
  obtain ⟨c1, hEval⟩ := evalKeysE_of_pointwise .ext eff_ext fillExt lst
    (fun m hm => ⟨(0, extCost m), evalKey_ext_ok m (hg m hm)⟩)
  refine ⟨(sortPairs (lst.map (fun m => (eff_ext m, fillExt m)))).map Prod.snd, c1, ?_, ?_⟩
  · simp [mkSortE, hEval]
  · have hp := (List.perm_insertionSort (fun p q : Nat × FMeta => p.1 ≤ q.1)
      (lst.map (fun m => (eff_ext m, fillExt m)))).map Prod.snd
    rw [List.map_map] at hp
    exact hp

theorem mkSortE_small_run (run : List FMeta) (v : Nat) (s : Nat)
    (hlen : 2 ≤ run.length)
    (hsz : ∀ m ∈ run, m.size = s) (hsmall : s ≤ checksum_size)
    (hg : ∀ m ∈ run, m.gone = false)
    (hb : ∀ m ∈ run, m.cache_beg = some v)
    (he : ∀ m ∈ run, m.cache_end.isSome → m.cache_end = some v)
    (ha : ∀ m ∈ run, m.cache_all.isSome → m.cache_all = some v) :
    ∃ out c, mkSortE [KeySel.end_, KeySel.all, KeySel.ext] run = .ok (out, c) ∧
      out.Perm (run.map (fun m => fillExt (fillAllS (fillEndS m)))) := by
  have hg2 : ∀ m ∈ (run.map fillEndS).map fillAllS, m.gone = false := by
    intro m hm
    obtain ⟨m1, hm1, rfl⟩ := List.mem_map.mp hm
    obtain ⟨m0, hm0, rfl⟩ := List.mem_map.mp hm1
    rw [(fillAllS_fields _).2.2.1, (fillEndS_fields _).2.2.1]
    exact hg m0 hm0
  obtain ⟨out3, c3, hext, hperm⟩ := mkSortE_ext ((run.map fillEndS).map fillAllS) hg2
  have hptAll : ∀ m ∈ run.map fillEndS, ∃ c, evalKey .all m = .ok (v, fillAllS m, c) := by
    intro m hm
    obtain ⟨m0, hm0, rfl⟩ := List.mem_map.mp hm
    refine ⟨(0, 0), evalKey_all_small _ v ?_ ?_ ?_⟩
    · rw [(fillEndS_fields m0).2.1, hsz m0 hm0]
      exact hsmall
    · rw [(fillEndS_fields m0).2.2.2.1]
      exact hb m0 hm0
    · rw [(fillEndS_fields m0).2.2.2.2.1]
      exact ha m0 hm0
  have hlen2 : 2 ≤ (run.map fillEndS).length := by
    simp only [List.length_map]
    exact hlen
  obtain ⟨c4, hAllStep⟩ :=
    mkSortE_const_step .all .ext [] v fillAllS (run.map fillEndS) hlen2 hptAll out3 c3 hext
  have hptEnd : ∀ m ∈ run, ∃ c, evalKey .end_ m = .ok (v, fillEndS m, c) := by
    intro m hm
    exact ⟨(0, 0), evalKey_end_small m v (by rw [hsz m hm]; exact hsmall) (hb m hm) (he m hm)⟩
  obtain ⟨c5, hEndStep⟩ :=
    mkSortE_const_step .end_ .all [.ext] v fillEndS run hlen hptEnd out3 c4 hAllStep
  refine ⟨out3, c5, hEndStep, ?_⟩
  rw [List.map_map, List.map_map] at hperm
  exact hperm

theorem runsFold_ok_of (f : List FMeta → Except PyErr (List FMeta × (Nat × Nat)))
    (g : FMeta → FMeta) :
    ∀ runs : List (List (Nat × FMeta)),
    (∀ run ∈ runs, 1 < run.length →
      ∃ o c, f (run.map Prod.snd) = .ok (o, c) ∧
        ∀ m1 ∈ o, ∃ mm ∈ run.map Prod.snd, m1 = g mm) →
    ∃ out c, runsFold f runs = .ok (out, c) ∧
      ∀ m1 ∈ out, ∃ run ∈ runs, ∃ mm ∈ run.map Prod.snd, (m1 = mm ∨ m1 = g mm) := by
  intro runs
  induction runs with
  | nil => intro _; exact ⟨[], (0, 0), rfl, by simp⟩
  | cons run rest ih =>
    intro h
    obtain ⟨out2, c2, hrest, hchar2⟩ := ih (fun r hr hl => h r (by simp [hr]) hl)
    by_cases hl : 1 < run.length
    · obtain ⟨o, c, hf, hchar⟩ := h run (by simp) hl
      refine ⟨o ++ out2, (c.1 + c2.1, c.2 + c2.2), ?_, ?_⟩
      · simp [runsFold, hl, hf, hrest]
      · intro m1 hm1
        rcases List.mem_append.mp hm1 with hm1 | hm1
        · obtain ⟨mm, hmm, heq⟩ := hchar m1 hm1
          exact ⟨run, by simp, mm, hmm, Or.inr heq⟩
        · obtain ⟨r, hr, mm, hmm, heq⟩ := hchar2 m1 hm1
          exact ⟨r, by simp [hr], mm, hmm, heq⟩
    · refine ⟨run.map Prod.snd ++ out2, (0 + c2.1, 0 + c2.2), ?_, ?_⟩
      · simp [runsFold, hl, hrest]
      · intro m1 hm1
        rcases List.mem_append.mp hm1 with hm1 | hm1
        · exact ⟨run, by simp, m1, hm1, Or.inl rfl⟩
        · obtain ⟨r, hr, mm, hmm, heq⟩ := hchar2 m1 hm1
          exact ⟨r, by simp [hr], mm, hmm, heq⟩

theorem mkSortE_small (g : List FMeta) (s : Nat)
    (hsz : ∀ m ∈ g, m.size = s) (hsmall : s ≤ checksum_size) (hpos : 0 < s)
    (hgone : ∀ m ∈ g, m.gone = false) (hcoh : ∀ m ∈ g, Coherent m) :
    ∃ out c, mkSortE fdKeys g = .ok (out, c) ∧
      ∀ m1 ∈ out, ∃ m ∈ g,
        m1 = fillBeg m ∨ m1 = fillExt (fillAllS (fillEndS (fillBeg m))) := by
  have hp : ∀ m ∈ g, m.cache_beg = none → m.gone = false ∧ 0 < m.size := fun m hm _ =>
    ⟨hgone m hm, by rw [hsz m hm]; exact hpos⟩
  have hEval := evalKeysE_beg_ok g hp
  have hsortperm : (sortPairs (g.map (fun m => (effBeg m, fillBeg m)))).Perm
      (g.map (fun m => (effBeg m, fillBeg m))) := List.perm_insertionSort _ _
  have hform : ∀ run ∈ groupRuns Prod.fst (sortPairs (g.map (fun m => (effBeg m, fillBeg m)))),
      ∀ p ∈ run, ∃ m ∈ g, p = (effBeg m, fillBeg m) := by
    intro run hrun p hp2
    have hmem : p ∈ g.map (fun m => (effBeg m, fillBeg m)) :=
      hsortperm.mem_iff.mp (groupRuns_forall_mem Prod.fst _ run hrun p hp2)
    obtain ⟨m, hm, heq⟩ := List.mem_map.mp hmem
    exact ⟨m, hm, heq.symm⟩
  have hrunchar : ∀ run ∈ groupRuns Prod.fst
      (sortPairs (g.map (fun m => (effBeg m, fillBeg m)))), 1 < run.length →
      ∃ o c, (fun ms => mkSortE [KeySel.end_, KeySel.all, KeySel.ext] ms)
          (run.map Prod.snd) = .ok (o, c) ∧
        ∀ m1 ∈ o, ∃ mm ∈ run.map Prod.snd, m1 = fillExt (fillAllS (fillEndS mm)) := by
    intro run hrun hlen
    have hkeyconst := groupRuns_key_const Prod.fst _ run hrun
    obtain ⟨p0, hp0⟩ : ∃ p0, p0 ∈ run := by
      cases run with
      | nil => simp at hlen
      | cons a l => exact ⟨a, by simp⟩
    have key_pt : ∀ mm ∈ run.map Prod.snd, ∃ m ∈ g, mm = fillBeg m ∧ effBeg m = p0.1 := by
      intro mm hmm
      obtain ⟨p, hp2, rfl⟩ := List.mem_map.mp hmm
      obtain ⟨m, hm, rfl⟩ := hform run hrun p hp2
      exact ⟨m, hm, rfl, hkeyconst _ hp2 p0 hp0⟩
    have h2 : 2 ≤ (run.map Prod.snd).length := by
      simp only [List.length_map]
      omega
    have hsz2 : ∀ mm ∈ run.map Prod.snd, mm.size = s := by
      intro mm hmm
      obtain ⟨m, hm, rfl, _⟩ := key_pt mm hmm
      rw [(fillBeg_fields m).2.1]
      exact hsz m hm
    have hg2 : ∀ mm ∈ run.map Prod.snd, mm.gone = false := by
      intro mm hmm
      obtain ⟨m, hm, rfl, _⟩ := key_pt mm hmm
      rw [(fillBeg_fields m).2.2.1]
      exact hgone m hm
    have hb2 : ∀ mm ∈ run.map Prod.snd, mm.cache_beg = some p0.1 := by
      intro mm hmm
      obtain ⟨m, hm, rfl, hv⟩ := key_pt mm hmm
      rw [fillBeg_cache, hv]
    have hcend : ∀ mm ∈ run.map Prod.snd, mm.cache_end.isSome → mm.cache_end = some p0.1 := by
      intro mm hmm hsome
      obtain ⟨m, hm, rfl, hv⟩ := key_pt mm hmm
      rw [(fillBeg_fields m).2.2.2.1] at hsome ⊢
      have hcohm := (hcoh m hm).1 (by rw [hsz m hm]; exact hsmall)
      have heq := hcohm.1 hsome
      rw [heq]
      rcases hcb : m.cache_beg with _ | w
      · rw [hcb] at heq
        rw [heq] at hsome
        simp at hsome
      · rw [← hv]
        simp [effBeg, hcb]
    have hcall : ∀ mm ∈ run.map Prod.snd, mm.cache_all.isSome → mm.cache_all = some p0.1 := by
      intro mm hmm hsome
      obtain ⟨m, hm, rfl, hv⟩ := key_pt mm hmm
      rw [(fillBeg_fields m).2.2.2.2.1] at hsome ⊢
      have hcohm := (hcoh m hm).1 (by rw [hsz m hm]; exact hsmall)
      have heq := hcohm.2 hsome
      rw [heq]
      rcases hcb : m.cache_beg with _ | w
      · rw [hcb] at heq
        rw [heq] at hsome
        simp at hsome
      · rw [← hv]
        simp [effBeg, hcb]
    obtain ⟨o, c, hok, hperm⟩ :=
      mkSortE_small_run (run.map Prod.snd) p0.1 s h2 hsz2 hsmall hg2 hb2 hcend hcall
    refine ⟨o, c, hok, ?_⟩
    intro m1 hm1
    have : m1 ∈ (run.map Prod.snd).map (fun m => fillExt (fillAllS (fillEndS m))) :=
      hperm.mem_iff.mp hm1
    obtain ⟨mm, hmm, heq⟩ := List.mem_map.mp this
    exact ⟨mm, hmm, heq.symm⟩
  obtain ⟨out, c, hfold, hchar⟩ := runsFold_ok_of
    (fun ms => mkSortE [KeySel.end_, KeySel.all, KeySel.ext] ms)
    (fun mm => fillExt (fillAllS (fillEndS mm)))
    (groupRuns Prod.fst (sortPairs (g.map (fun m => (effBeg m, fillBeg m))))) hrunchar
  have hstep : mkSortE (KeySel.beg :: KeySel.end_ :: [KeySel.all, KeySel.ext]) g =
      match evalKeysE KeySel.beg g with
      | .error e => .error e
      | .ok (pairs, c1) =>
        match runsFold (fun ms => mkSortE (KeySel.end_ :: [KeySel.all, KeySel.ext]) ms)
            (groupRuns Prod.fst (sortPairs pairs)) with
        | .error e => .error e
        | .ok (o, c2) => .ok (o, (c1.1 + c2.1, c1.2 + c2.2)) := rfl
  refine ⟨out, (g.countP (fun m => m.cache_beg.isNone) + c.1, 0 + c.2), ?_, ?_⟩
  · show mkSortE (KeySel.beg :: KeySel.end_ :: [KeySel.all, KeySel.ext]) g = _
    simp only [hstep, hEval, hfold]
  · intro m1 hm1
    obtain ⟨run, hrun, mm, hmm, hor⟩ := hchar m1 hm1
    obtain ⟨p, hp2, rfl⟩ := List.mem_map.mp hmm
    obtain ⟨m, hm, rfl⟩ := hform run hrun p hp2
    exact ⟨m, hm, hor⟩


theorem stepRel_fields {m m1 : FMeta} (h : stepRel m m1) :
    m1.path = m.path ∧ m1.size = m.size ∧
    (m.hashed_file = true → m1.hashed_file = true) ∧
    (checksum_size < m.size → m1.hashed_file = false → m1 = m) := by
  obtain ⟨k, v, c, h⟩ := h
  cases k with
  | beg =>
    rcases hc : m.cache_beg with _ | s
    · by_cases hg2 : m.gone = true
      · have he : evalKey .beg m = .error .fileNotFound := by
          simp [evalKey, FMeta.checksum_beg, hc, hg2]
        rw [he] at h
        simp at h
      · have hgf : m.gone = false := by simpa using hg2
        by_cases hz : m.size = 0
        · have he : evalKey .beg m = .error .zeroDivision := by
            simp [evalKey, FMeta.checksum_beg, hc, hgf, checksum_file, hz]
          rw [he] at h
          simp at h
        · have he : evalKey .beg m =
              .ok (m.beg_val, { m with cache_beg := some m.beg_val, hashed_file := true }, (1, 0)) := by
            simp [evalKey, FMeta.checksum_beg, hc, hgf, checksum_file, hz]
          rw [he] at h
          simp only [Except.ok.injEq, Prod.mk.injEq] at h
          obtain ⟨h1, h2, h3⟩ := h
          subst h2
          exact ⟨rfl, rfl, fun _ => rfl, fun _ hf => by simp at hf⟩
    · have he : evalKey .beg m = .ok (s, m, (0, 0)) := by
        simp [evalKey, FMeta.checksum_beg, hc]
      rw [he] at h
      simp only [Except.ok.injEq, Prod.mk.injEq] at h
      obtain ⟨h1, h2, h3⟩ := h
      subst h2
      exact ⟨rfl, rfl, fun hh => hh, fun _ _ => rfl⟩
  | end_ =>
    rcases hc : m.cache_end with _ | s
    · by_cases hsm : m.size ≤ checksum_size
      · rcases hcb : m.cache_beg with _ | w
        · by_cases hg2 : m.gone = true
          · have he : evalKey .end_ m = .error .fileNotFound := by
              simp [evalKey, FMeta.checksum_end, FMeta.checksum_beg, hc, hsm, hcb, hg2]
            rw [he] at h
            simp at h
          · have hgf : m.gone = false := by simpa using hg2
            by_cases hz : m.size = 0
            · have he : evalKey .end_ m = .error .zeroDivision := by
                simp [evalKey, FMeta.checksum_end, FMeta.checksum_beg, hc, hsm, hcb, hgf,
                  checksum_file, hz]
              rw [he] at h
              simp at h
            · have he : evalKey .end_ m =
                  .ok (m.beg_val, { m with cache_beg := some m.beg_val, hashed_file := true, cache_end := some m.beg_val }, (1, 0)) := by
                simp [evalKey, FMeta.checksum_end, FMeta.checksum_beg, hc, hsm, hcb, hgf,
                  checksum_file, hz]
              rw [he] at h
              simp only [Except.ok.injEq, Prod.mk.injEq] at h
              obtain ⟨h1, h2, h3⟩ := h
              subst h2
              exact ⟨rfl, rfl, fun _ => rfl, fun _ hf => by simp at hf⟩
        · have he : evalKey .end_ m = .ok (w, { m with cache_end := some w }, (0, 0)) := by
            simp [evalKey, FMeta.checksum_end, FMeta.checksum_beg, hc, hsm, hcb]
          rw [he] at h
          simp only [Except.ok.injEq, Prod.mk.injEq] at h
          obtain ⟨h1, h2, h3⟩ := h
          subst h2
          refine ⟨rfl, rfl, fun hh => hh, ?_⟩
          intro hlt _
          omega
      · by_cases hg2 : m.gone = true
        · have he : evalKey .end_ m = .error .fileNotFound := by
            simp [evalKey, FMeta.checksum_end, hc, hsm, hg2]
          rw [he] at h
          simp at h
        · have hgf : m.gone = false := by simpa using hg2
          have hz : m.size ≠ 0 := by
            simp [checksum_size] at hsm
            omega
          have he : evalKey .end_ m =
              .ok (m.end_val, { m with cache_end := some m.end_val, hashed_file := true }, (1, 0)) := by
            simp [evalKey, FMeta.checksum_end, hc, hsm, hgf, checksum_file, hz]
          rw [he] at h
          simp only [Except.ok.injEq, Prod.mk.injEq] at h
          obtain ⟨h1, h2, h3⟩ := h
          subst h2
          exact ⟨rfl, rfl, fun _ => rfl, fun _ hf => by simp at hf⟩
    · have he : evalKey .end_ m = .ok (s, m, (0, 0)) := by
        simp [evalKey, FMeta.checksum_end, hc]
      rw [he] at h
      simp only [Except.ok.injEq, Prod.mk.injEq] at h
      obtain ⟨h1, h2, h3⟩ := h
      subst h2
      exact ⟨rfl, rfl, fun hh => hh, fun _ _ => rfl⟩
  | all =>
    rcases hc : m.cache_all with _ | s
    · by_cases hsm : m.size ≤ checksum_size
      · rcases hcb : m.cache_beg with _ | w
        · by_cases hg2 : m.gone = true
          · have he : evalKey .all m = .error .fileNotFound := by
              simp [evalKey, FMeta.checksum_all, FMeta.checksum_beg, hc, hsm, hcb, hg2]
            rw [he] at h
            simp at h
          · have hgf : m.gone = false := by simpa using hg2
            by_cases hz : m.size = 0
            · have he : evalKey .all m = .error .zeroDivision := by
                simp [evalKey, FMeta.checksum_all, FMeta.checksum_beg, hc, hsm, hcb, hgf,
                  checksum_file, hz]
              rw [he] at h
              simp at h
            · have he : evalKey .all m =
                  .ok (m.beg_val, { m with cache_beg := some m.beg_val, hashed_file := true, cache_all := some m.beg_val }, (1, 0)) := by
                simp [evalKey, FMeta.checksum_all, FMeta.checksum_beg, hc, hsm, hcb, hgf,
                  checksum_file, hz]
              rw [he] at h
              simp only [Except.ok.injEq, Prod.mk.injEq] at h
              obtain ⟨h1, h2, h3⟩ := h
              subst h2
              exact ⟨rfl, rfl, fun _ => rfl, fun _ hf => by simp at hf⟩
        · have he : evalKey .all m = .ok (w, { m with cache_all := some w }, (0, 0)) := by
            simp [evalKey, FMeta.checksum_all, FMeta.checksum_beg, hc, hsm, hcb]
          rw [he] at h
          simp only [Except.ok.injEq, Prod.mk.injEq] at h
          obtain ⟨h1, h2, h3⟩ := h
          subst h2
          refine ⟨rfl, rfl, fun hh => hh, ?_⟩
          intro hlt _
          omega
      · by_cases hg2 : m.gone = true
        · have he : evalKey .all m = .error .fileNotFound := by
            simp [evalKey, FMeta.checksum_all, hc, hsm, hg2]
          rw [he] at h
          simp at h
        · have hgf : m.gone = false := by simpa using hg2
          have hz : m.size ≠ 0 := by
            simp [checksum_size] at hsm
            omega
          have he : evalKey .all m =
              .ok (m.all_val, { m with cache_all := some m.all_val, hashed_file := true }, (1, 0)) := by
            simp [evalKey, FMeta.checksum_all, hc, hsm, hgf, checksum_file, hz]
          rw [he] at h
          simp only [Except.ok.injEq, Prod.mk.injEq] at h
          obtain ⟨h1, h2, h3⟩ := h
          subst h2
          exact ⟨rfl, rfl, fun _ => rfl, fun _ hf => by simp at hf⟩
    · have he : evalKey .all m = .ok (s, m, (0, 0)) := by
        simp [evalKey, FMeta.checksum_all, hc]
      rw [he] at h
      simp only [Except.ok.injEq, Prod.mk.injEq] at h
      obtain ⟨h1, h2, h3⟩ := h
      subst h2
      exact ⟨rfl, rfl, fun hh => hh, fun _ _ => rfl⟩
  | ext =>
    rcases hc : m.cache_ext with _ | s
    · by_cases hg2 : m.gone = true
      · have he : evalKey .ext m = .error .indexError := by
          simp [evalKey, FMeta.extents_hash, hc, hg2]
        rw [he] at h
        simp at h
      · have hgf : m.gone = false := by simpa using hg2
        have he : evalKey .ext m =
            .ok (m.ext_val, { m with cache_ext := some m.ext_val, hashed_file := true }, (0, 1)) := by
          simp [evalKey, FMeta.extents_hash, hc, hgf]
        rw [he] at h
        simp only [Except.ok.injEq, Prod.mk.injEq] at h
        obtain ⟨h1, h2, h3⟩ := h
        subst h2
        exact ⟨rfl, rfl, fun _ => rfl, fun _ hf => by simp at hf⟩
    · have he : evalKey .ext m = .ok (s, m, (0, 0)) := by
        simp [evalKey, FMeta.extents_hash, hc]
      rw [he] at h
      simp only [Except.ok.injEq, Prod.mk.injEq] at h
      obtain ⟨h1, h2, h3⟩ := h
      subst h2
      exact ⟨rfl, rfl, fun hh => hh, fun _ _ => rfl⟩

theorem evolves_fields {m m1 : FMeta} (h : evolves m m1) :
    m1.path = m.path ∧ m1.size = m.size ∧
    (m.hashed_file = true → m1.hashed_file = true) := by
  induction h with
  | refl => exact ⟨rfl, rfl, fun hh => hh⟩
  | tail hev hstep ih =>
    have hs := stepRel_fields hstep
    exact ⟨hs.1.trans ih.1, hs.2.1.trans ih.2.1, fun hh => hs.2.2.1 (ih.2.2 hh)⟩

theorem evolves_large_id {m m1 : FMeta} (h : evolves m m1)
    (hl : checksum_size < m.size) : m1.hashed_file = false → m1 = m := by
  induction h with
  | refl => intro _; rfl
  | @tail b c2 hev hstep ih =>
    intro hf
    have hs := stepRel_fields hstep
    have hbf : b.hashed_file = false := by
      cases hb : b.hashed_file with
      | false => rfl
      | true => exact absurd (hs.2.2.1 hb) (by simp [hf])
    have hbm := ih hbf
    subst hbm
    exact hs.2.2.2 hl hf

theorem evalKeysE_mem (k : KeySel) : ∀ (lst : List FMeta) (pairs : List (Nat × FMeta))
    (c : Nat × Nat), evalKeysE k lst = .ok (pairs, c) →
    ∀ p ∈ pairs, ∃ m ∈ lst, stepRel m p.2 := by
  intro lst
  induction lst with
  | nil =>
    intro pairs c h p hp
    simp only [evalKeysE, Except.ok.injEq, Prod.mk.injEq] at h
    obtain ⟨h1, -⟩ := h
    subst h1
    simp at hp
  | cons m ms ih =>
    intro pairs c h p hp
    rcases hek : evalKey k m with e | ⟨s, m1, c1⟩
    · simp only [evalKeysE, hek] at h
      simp at h
    · rcases hrest : evalKeysE k ms with e2 | ⟨rest, c2⟩
      · simp only [evalKeysE, hek, hrest] at h
        simp at h
      · simp only [evalKeysE, hek, hrest, Except.ok.injEq, Prod.mk.injEq] at h
        obtain ⟨h1, -⟩ := h
        subst h1
        rcases List.mem_cons.mp hp with rfl | hp
        · exact ⟨m, by simp, k, s, c1, hek⟩
        · obtain ⟨m0, hm0, hstep⟩ := ih rest c2 hrest p hp
          exact ⟨m0, by simp [hm0], hstep⟩

theorem runsFold_mem (f : List FMeta → Except PyErr (List FMeta × (Nat × Nat)))
    (hf : ∀ ms out c, f ms = .ok (out, c) → ∀ m1 ∈ out, ∃ m ∈ ms, evolves m m1) :
    ∀ (runs : List (List (Nat × FMeta))) (out : List FMeta) (c : Nat × Nat),
      runsFold f runs = .ok (out, c) →
      ∀ m1 ∈ out, ∃ run ∈ runs, ∃ m ∈ run.map Prod.snd, evolves m m1 := by
  intro runs
  induction runs with
  | nil =>
    intro out c h m1 hm1
    simp only [runsFold, Except.ok.injEq, Prod.mk.injEq] at h
    obtain ⟨h1, -⟩ := h
    subst h1
    simp at hm1
  | cons run rest ih =>
    intro out c h m1 hm1
    rcases hcase : (if 1 < run.length then f (run.map Prod.snd)
        else Except.ok (run.map Prod.snd, (0, 0))) with e | ⟨ms1, c1⟩
    · simp only [runsFold, hcase] at h
      simp at h
    · rcases hrest : runsFold f rest with e2 | ⟨out2, c2⟩
      · simp only [runsFold, hcase, hrest] at h
        simp at h
      · simp only [runsFold, hcase, hrest, Except.ok.injEq, Prod.mk.injEq] at h
        obtain ⟨h1, -⟩ := h
        subst h1
        rcases List.mem_append.mp hm1 with hm1 | hm1
        · by_cases hl : 1 < run.length
          · rw [if_pos hl] at hcase
            obtain ⟨m, hm, hev⟩ := hf (run.map Prod.snd) ms1 c1 hcase m1 hm1
            exact ⟨run, by simp, m, hm, hev⟩
          · rw [if_neg hl] at hcase
            simp only [Except.ok.injEq, Prod.mk.injEq] at hcase
            obtain ⟨h2, -⟩ := hcase
            subst h2
            exact ⟨run, by simp, m1, hm1, Relation.ReflTransGen.refl⟩
        · obtain ⟨r, hr, m, hm, hev⟩ := ih out2 c2 hrest m1 hm1
          exact ⟨r, by simp [hr], m, hm, hev⟩

theorem mkSortE_evolves : ∀ (ks : List KeySel) (lst out : List FMeta) (c : Nat × Nat),
    mkSortE ks lst = .ok (out, c) → ∀ m1 ∈ out, ∃ m ∈ lst, evolves m m1 := by
  intro ks
  induction ks with
  | nil =>
    intro lst out c h m1 hm1
    simp only [mkSortE, Except.ok.injEq, Prod.mk.injEq] at h
    obtain ⟨h1, -⟩ := h
    subst h1
    exact ⟨m1, hm1, Relation.ReflTransGen.refl⟩
  | cons k ks2 ih =>
    cases ks2 with
    | nil =>
      intro lst out c h m1 hm1
      rcases hek : evalKeysE k lst with e | ⟨pairs, c1⟩
      · simp only [mkSortE, hek] at h
        simp at h
      · simp only [mkSortE, hek, Except.ok.injEq, Prod.mk.injEq] at h
        obtain ⟨h1, -⟩ := h
        subst h1
        obtain ⟨p, hp, hpm⟩ := List.mem_map.mp hm1
        have hp2 : p ∈ pairs :=
          (List.perm_insertionSort _ pairs).mem_iff.mp hp
        obtain ⟨m, hm, hstep⟩ := evalKeysE_mem k lst pairs c1 hek p hp2
        exact ⟨m, hm, hpm ▸ Relation.ReflTransGen.single hstep⟩
    | cons k3 ks3 =>
      intro lst out c h m1 hm1
      rcases hek : evalKeysE k lst with e | ⟨pairs, c1⟩
      · simp only [mkSortE, hek] at h
        simp at h
      · rcases hrf : runsFold (fun ms => mkSortE (k3 :: ks3) ms)
            (groupRuns Prod.fst (sortPairs pairs)) with e2 | ⟨out2, c2⟩
        · simp only [mkSortE, hek, hrf] at h
          simp at h
        · simp only [mkSortE, hek, hrf, Except.ok.injEq, Prod.mk.injEq] at h
          obtain ⟨h1, -⟩ := h
          subst h1
          obtain ⟨run, hrun, m2, hm2, hev⟩ := runsFold_mem _
            (fun ms o cc hh => ih ms o cc hh)
            (groupRuns Prod.fst (sortPairs pairs)) out2 c2 hrf m1 hm1
          obtain ⟨p, hp2, hpm⟩ := List.mem_map.mp hm2
          have hpin : p ∈ pairs :=
            (List.perm_insertionSort _ pairs).mem_iff.mp
              (groupRuns_forall_mem Prod.fst _ run hrun p hp2)
          obtain ⟨m, hm, hstep⟩ := evalKeysE_mem k lst pairs c1 hek p hpin
          exact ⟨m, hm, Relation.ReflTransGen.head hstep (hpm ▸ hev)⟩

/-- Claim C8: after the lazy multi-key sort of a size class (uniform size,
files present and non-empty, store rows in a state the program itself can
produce: unique paths and coherent digest tuples), every record whose raw
digest tuple changed during the sort — that is, every digest value that
became newly known, including a tail or full digest derived for a small
file whose head digest was already cached from a previous run — is written
back to the store by the write-back loop, keyed by its path, regardless of
whether the file ends up in a duplicate group. -/
theorem digest_writeback (g : List FMeta) (s : Nat)
    (hsz : ∀ m ∈ g, m.size = s) (hpos : 0 < s)
    (hgone : ∀ m ∈ g, m.gone = false)
    (hcoh : ∀ m ∈ g, Coherent m)
    (hnd : (g.map FMeta.path).Nodup)
    (out : List FMeta) (c : Nat × Nat)
    (hrun : processSizeClassE g = .ok (out, c)) :
    ∀ m ∈ g, ∀ m1 ∈ out, m1.path = m.path →
      FMeta.raw_hashes m1 ≠ FMeta.raw_hashes m →
      (m1.path, FMeta.raw_hashes m1) ∈ write_digests out := by
  intro m hm m1 hm1 hpath hraw
  suffices hh : m1.hashed_file = true by exact write_digests_mem hm1 hh
  by_cases hlen1 : g.length = 1
  · have hid : processSizeClassE g = .ok (g, (0, 0)) := by
      simp [processSizeClassE, hlen1]
    rw [hid] at hrun
    simp only [Except.ok.injEq, Prod.mk.injEq] at hrun
    obtain ⟨h1, -⟩ := hrun
    subst h1
    have heq : m1 = m := List.inj_on_of_nodup_map hnd hm1 hm hpath
    exact absurd (by rw [heq]) hraw
  · by_cases hnil : g = []
    · subst hnil
      simp at hm
    · have hrun2 : mkSortE fdKeys g = .ok (out, c) := by
        rw [← hrun]
        simp [processSizeClassE, hlen1, multikey_sortE, hnil, fdKeys]
      by_cases hsmall : s ≤ checksum_size
      · obtain ⟨out0, c0, hok, hchar⟩ := mkSortE_small g s hsz hsmall hpos hgone hcoh
        rw [hok] at hrun2
        simp only [Except.ok.injEq, Prod.mk.injEq] at hrun2
        obtain ⟨h1, -⟩ := hrun2
        subst h1
        obtain ⟨m0, hm0, hor⟩ := hchar m1 hm1
        have hpath0 : m1.path = m0.path := by
          rcases hor with rfl | rfl
          · exact (fillBeg_fields m0).1
          · rw [(fillExt_fields _).1, (fillAllS_fields _).1, (fillEndS_fields _).1,
              (fillBeg_fields m0).1]
        have hmm : m0 = m := List.inj_on_of_nodup_map hnd hm0 hm (by rw [← hpath0, hpath])
        subst hmm
        rcases hor with rfl | rfl
        · rcases hcb : m0.cache_beg with _ | w
          · simp [fillBeg, hcb]
          · have hfb : fillBeg m0 = m0 := by simp [fillBeg, hcb]
            exact absurd (by rw [hfb]) hraw
        · rcases hcb : m0.cache_beg with _ | w
          · have h1 : (fillBeg m0).hashed_file = true := by simp [fillBeg, hcb]
            have h2 : (fillEndS (fillBeg m0)).hashed_file = true := by
              rw [(fillEndS_fields _).2.2.2.2.2.2]
              exact h1
            have h3 : (fillAllS (fillEndS (fillBeg m0))).hashed_file = true := by
              rw [(fillAllS_fields _).2.2.2.2.2.2]
              exact h2
            rcases hce : (fillAllS (fillEndS (fillBeg m0))).cache_ext with _ | x
            · simp [fillExt, hce]
            · simp only [fillExt, hce]
              exact h3
          · have hfb : fillBeg m0 = m0 := by simp [fillBeg, hcb]
            rw [hfb]
            rcases hcx : m0.cache_ext with _ | x
            · have hce2 : (fillAllS (fillEndS m0)).cache_ext = none := by
                rw [(fillAllS_fields _).2.2.2.2.2.1, (fillEndS_fields _).2.2.2.2.2.1]
                exact hcx
              simp [fillExt, hce2]
            · have hcohm := (hcoh m0 hm).2 (by simp [hcx])
              have hend : m0.cache_end.isSome := hcohm.1
              have hall : m0.cache_all.isSome := hcohm.2
              have hfe : fillEndS m0 = m0 := by
                rcases hee : m0.cache_end with _ | y
                · rw [hee] at hend
                  simp at hend
                · simp [fillEndS, hee]
              have hfa : fillAllS m0 = m0 := by
                rcases haa : m0.cache_all with _ | y
                · rw [haa] at hall
                  simp at hall
                · simp [fillAllS, haa]
              have hfx : fillExt m0 = m0 := by simp [fillExt, hcx]
              have hchain : fillExt (fillAllS (fillEndS (fillBeg m0))) = m0 := by
                rw [hfb, hfe, hfa, hfx]
              exact absurd (by rw [hchain]) hraw
      · obtain ⟨m0, hm0, hev⟩ := mkSortE_evolves fdKeys g out c hrun2 m1 hm1
        have hpath0 : m1.path = m0.path := (evolves_fields hev).1
        have hmm : m0 = m := List.inj_on_of_nodup_map hnd hm0 hm (by rw [← hpath0, hpath])
        subst hmm
        cases hhf : m1.hashed_file with
        | true => rfl
        | false =>
          have heq : m1 = m0 :=
            evolves_large_id hev (by rw [hsz m0 hm]; omega) hhf
          exact absurd (by rw [heq]) hraw

theorem digest_writeback_witness :
    (c8_a4.path, FMeta.raw_hashes c8_a4) ∈ write_digests [c8_a4, c8_b4] :=
  digest_writeback [c8_a, c8_b] 5 (by decide) (by decide) (by decide) (by decide)
    (by decide) [c8_a4, c8_b4] (1, 2) (by rfl) c8_a (by decide) c8_a4 (by decide) rfl
    (by decide)

theorem keyLe_of_key_eq {α κ : Type} [LinearOrder κ] (k : α → κ) (rev : Bool)
    {a b : α} (h : k a = k b) : keyLe k rev a b := by
  cases rev <;> simp [keyLe, h]

theorem strictKey_of_keyLe_of_ne {α κ : Type} [LinearOrder κ] (k : α → κ) (rev : Bool)
    {a b : α} (h : keyLe k rev a b) (hne : k a ≠ k b) : strictKey k rev a b := by
  cases rev <;> simp [keyLe] at h <;> simp [strictKey]
  · exact lt_of_le_of_ne h hne
  · exact lt_of_le_of_ne h (fun hc => hne hc.symm)

theorem strictKey_ne {α κ : Type} [LinearOrder κ] (k : α → κ) (rev : Bool)
    {a b : α} (h : strictKey k rev a b) : k a ≠ k b := by
  cases rev <;> simp [strictKey] at h
  · exact ne_of_lt h
  · exact (ne_of_lt h).symm

theorem strictKey_of_not_keyLe {α κ : Type} [LinearOrder κ] (k : α → κ) (rev : Bool)
    {a b : α} (h : ¬ keyLe k rev a b) : strictKey k rev b a := by
  cases rev <;> simp [keyLe] at h <;> simpa [strictKey] using h

theorem strictKey_trans_keyLe {α κ : Type} [LinearOrder κ] (k : α → κ) (rev : Bool)
    {a b c : α} (h1 : strictKey k rev a b) (h2 : keyLe k rev b c) :
    strictKey k rev a c := by
  cases rev <;> simp [keyLe] at h2 <;> simp [strictKey] at h1 ⊢
  · exact lt_of_lt_of_le h1 h2
  · exact lt_of_le_of_lt h2 h1

theorem strictKey_congr_left {α κ : Type} [LinearOrder κ] (k : α → κ) (rev : Bool)
    {a b c : α} (h : k a = k b) : strictKey k rev a c ↔ strictKey k rev b c := by
  cases rev <;> simp [strictKey, h]

theorem strictKey_congr_right {α κ : Type} [LinearOrder κ] (k : α → κ) (rev : Bool)
    {a b c : α} (h : k b = k c) : strictKey k rev a b ↔ strictKey k rev a c := by
  cases rev <;> simp [strictKey, h]

theorem strictKey_asymm {α κ : Type} [LinearOrder κ] (k : α → κ) (rev : Bool)
    {a b : α} (h : strictKey k rev a b) : ¬ strictKey k rev b a := by
  cases rev <;> simp [strictKey] at h ⊢ <;> exact le_of_lt h

theorem orderedInsert_all_skip {α : Type} (r : α → α → Prop) [DecidableRel r] (a : α) :
    ∀ (xs ys : List α), (∀ b ∈ xs, ¬ r a b) →
      List.orderedInsert r a (xs ++ ys) = xs ++ List.orderedInsert r a ys := by
  intro xs
  induction xs with
  | nil => intro ys _; rfl
  | cons x t ih =>
    intro ys h
    have hx : ¬ r a x := h x (by simp)
    simp only [List.cons_append, List.orderedInsert, if_neg hx, List.append_eq]
    rw [ih ys (fun b hb => h b (by simp [hb]))]

theorem orderedInsert_front {α : Type} (r : α → α → Prop) [DecidableRel r] (a : α) :
    ∀ (l : List α), (∀ b ∈ l, r a b) → List.orderedInsert r a l = a :: l := by
  intro l h
  cases l with
  | nil => rfl
  | cons x t => simp [List.orderedInsert, h x (by simp)]

theorem orderedInsert_append_congr {α : Type} (r s : α → α → Prop)
    [DecidableRel r] [DecidableRel s] (a : α) :
    ∀ (xs ys : List α), (∀ b ∈ xs, r a b ↔ s a b) → (∀ b ∈ ys, r a b) →
      List.orderedInsert r a (xs ++ ys) = List.orderedInsert s a xs ++ ys := by
  intro xs
  induction xs with
  | nil =>
    intro ys _ hys
    cases ys with
    | nil => rfl
    | cons c t => simp [List.orderedInsert, hys c (by simp)]
  | cons x t ih =>
    intro ys hiff hys
    by_cases hx : r a x
    · have hs : s a x := (hiff x (by simp)).mp hx
      simp [List.orderedInsert, hx, hs]
    · have hs : ¬ s a x := fun hc => hx ((hiff x (by simp)).mpr hc)
      simp only [List.cons_append, List.orderedInsert, if_neg hx, if_neg hs, List.append_eq]
      rw [ih ys (fun b hb => hiff b (by simp [hb])) hys]

theorem orderedInsert_congr_rel {α : Type} (r s : α → α → Prop)
    [DecidableRel r] [DecidableRel s] (h : ∀ a b, r a b ↔ s a b) (a : α) :
    ∀ l : List α, List.orderedInsert r a l = List.orderedInsert s a l := by
  intro l
  induction l with
  | nil => rfl
  | cons x t ih =>
    by_cases hx : r a x
    · simp [List.orderedInsert, hx, (h a x).mp hx]
    · have hs : ¬ s a x := fun hc => hx ((h a x).mpr hc)
      simp only [List.orderedInsert, if_neg hx, if_neg hs, ih]

theorem insertionSort_congr_rel {α : Type} (r s : α → α → Prop)
    [DecidableRel r] [DecidableRel s] (h : ∀ a b, r a b ↔ s a b) :
    ∀ l : List α, List.insertionSort r l = List.insertionSort s l := by
  intro l
  induction l with
  | nil => rfl
  | cons x t ih => simp only [List.insertionSort, ih, orderedInsert_congr_rel r s h]

theorem insertionSort_short {α : Type} (r : α → α → Prop) [DecidableRel r]
    (l : List α) (h : l.length ≤ 1) : List.insertionSort r l = l := by
  cases l with
  | nil => rfl
  | cons x t =>
    cases t with
    | nil => rfl
    | cons y u => simp at h

theorem runsGo_eq_flatten_map {α : Type} (f g : List α → List α)
    (hf : ∀ r, f r = g r) (hshort : ∀ r : List α, r.length ≤ 1 → g r = r) :
    ∀ rs : List (List α), runsGo f rs = (rs.map g).flatten := by
  intro rs
  induction rs with
  | nil => rfl
  | cons r rs ih =>
    simp only [runsGo, List.map_cons, List.flatten_cons, ih]
    by_cases h1 : 1 < r.length
    · simp [h1, hf]
    · simp [h1, hshort r (by omega)]

theorem takeWhile_append_all {α : Type} (p : α → Bool) :
    ∀ (xs ys : List α), (∀ x ∈ xs, p x = true) →
      (xs ++ ys).takeWhile p = xs ++ ys.takeWhile p := by
  intro xs
  induction xs with
  | nil => intro ys _; rfl
  | cons x t ih =>
    intro ys h
    simp only [List.cons_append, List.takeWhile_cons, h x (by simp),
      ih ys (fun b hb => h b (by simp [hb]))]
    simp

theorem dropWhile_append_all {α : Type} (p : α → Bool) :
    ∀ (xs ys : List α), (∀ x ∈ xs, p x = true) →
      (xs ++ ys).dropWhile p = ys.dropWhile p := by
  intro xs
  induction xs with
  | nil => intro ys _; rfl
  | cons x t ih =>
    intro ys h
    simp only [List.cons_append, List.dropWhile_cons, h x (by simp)]
    simp only [if_true]
    exact ih ys (fun b hb => h b (by simp [hb]))

theorem takeWhile_of_dropWhile_self {α : Type} (p : α → Bool) :
    ∀ l : List α, (l.dropWhile p).takeWhile p = [] := by
  intro l
  induction l with
  | nil => rfl
  | cons x t ih =>
    by_cases hx : p x = true
    · simp [List.dropWhile_cons, hx, ih]
    · simp only [Bool.not_eq_true] at hx
      simp [List.dropWhile_cons, List.takeWhile_cons, hx]

theorem dropWhile_of_takeWhile_nil {α : Type} (p : α → Bool) :
    ∀ l : List α, l.takeWhile p = [] → l.dropWhile p = l := by
  intro l h
  cases l with
  | nil => rfl
  | cons x t =>
    by_cases hx : p x = true
    · simp [List.takeWhile_cons, hx] at h
    · simp only [Bool.not_eq_true] at hx
      simp [List.dropWhile_cons, hx]

theorem takeWhile_orderedInsert_nil {α : Type} (p : α → Bool) (r : α → α → Prop)
    [DecidableRel r] (a : α) (ha : p a = false) :
    ∀ l : List α, l.takeWhile p = [] → (List.orderedInsert r a l).takeWhile p = [] := by
  intro l h
  cases l with
  | nil => simp [List.orderedInsert, List.takeWhile_cons, ha]
  | cons x t =>
    by_cases hx : p x = true
    · simp [List.takeWhile_cons, hx] at h
    · simp only [Bool.not_eq_true] at hx
      by_cases hr : r a x
      · simp [List.orderedInsert, hr, List.takeWhile_cons, ha]
      · simp [List.orderedInsert, hr, List.takeWhile_cons, hx]

theorem groupRuns_cons_eq {α κ : Type} [DecidableEq κ] (key : α → κ) :
    ∀ (l : List α) (b : α),
      groupRuns key (b :: l) =
        (b :: l.takeWhile (fun x => decide (key x = key b))) ::
          groupRuns key (l.dropWhile (fun x => decide (key x = key b))) := by
  intro l
  induction l with
  | nil => intro b; rfl
  | cons x t ih =>
    intro b
    have hunf : groupRuns key (b :: x :: t) =
        match groupRuns key (x :: t) with
        | [] => [[b]]
        | [] :: gs => [[b]] ++ gs
        | (y :: ys) :: gs =>
          if key b = key y then (b :: y :: ys) :: gs else [b] :: (y :: ys) :: gs := rfl
    by_cases hx : key x = key b
    · have hpred : (fun z => decide (key z = key x)) = (fun z => decide (key z = key b)) := by
        funext z; rw [hx]
      rw [hunf, ih x, hpred]
      simp [List.takeWhile_cons, List.dropWhile_cons, hx]
    · have hbx : ¬ key b = key x := fun hc => hx hc.symm
      have htw : (x :: t).takeWhile (fun z => decide (key z = key b)) = [] := by
        simp [List.takeWhile_cons, hx]
      have hdw : (x :: t).dropWhile (fun z => decide (key z = key b)) = x :: t := by
        simp [List.dropWhile_cons, hx]
      rw [hunf, ih x, htw, hdw, ih x]
      simp [hbx]

theorem mem_sortRuns_imp {α κ : Type} [LinearOrder κ] (k : α → κ) (s : α → α → Prop)
    [DecidableRel s] (S : List α) :
    ∀ c ∈ sortRuns k s S, c ∈ S := by
  intro c hc
  simp only [sortRuns, List.mem_flatten, List.mem_map] at hc
  obtain ⟨blk, ⟨R, hR, rfl⟩, hcb⟩ := hc
  have hcR : c ∈ R := (List.perm_insertionSort s R).mem_iff.mp hcb
  exact groupRuns_forall_mem k S R hR c hcR

theorem strict_after_dropWhile {α κ : Type} [LinearOrder κ] (k : α → κ) (rev : Bool) :
    ∀ (t : List α) (b : α), List.Pairwise (keyLe k rev) (b :: t) →
      ∀ c ∈ t.dropWhile (fun x => decide (k x = k b)), strictKey k rev b c := by
  intro t
  induction t with
  | nil => intro b _ c hc; simp at hc
  | cons x t ih =>
    intro b hs c hc
    have hbx : keyLe k rev b x := (List.pairwise_cons.mp hs).1 x (by simp)
    by_cases hx : k x = k b
    · simp [List.dropWhile_cons, hx] at hc
      have hbt : List.Pairwise (keyLe k rev) (b :: t) :=
        hs.sublist ((List.sublist_cons_self x t).cons₂ b)
      exact ih b hbt c hc
    · simp [List.dropWhile_cons, hx] at hc
      have hstrict_bx : strictKey k rev b x :=
        strictKey_of_keyLe_of_ne k rev hbx (fun hc2 => hx hc2.symm)
      rcases hc with rfl | hct
      · exact hstrict_bx
      · have hxc : keyLe k rev x c :=
          (List.pairwise_cons.mp (List.pairwise_cons.mp hs).2).1 c hct
        exact strictKey_trans_keyLe k rev hstrict_bx hxc

theorem sortRuns_orderedInsert {α κ : Type} [LinearOrder κ] (k : α → κ) (rev : Bool)
    (s : α → α → Prop) [DecidableRel s] (a : α) :
    ∀ (n : Nat) (S : List α), S.length ≤ n → List.Pairwise (keyLe k rev) S →
      sortRuns k s (List.orderedInsert (keyLe k rev) a S) =
        List.orderedInsert (lexCons k rev s) a (sortRuns k s S) := by
  intro n
  induction n with
  | zero =>
    intro S hlen _
    have hS : S = [] := List.length_eq_zero.mp (Nat.le_zero.mp hlen)
    subst hS
    simp [sortRuns, groupRuns, List.orderedInsert, List.insertionSort]
  | succ n ih =>
    intro S hlen hs
    cases S with
    | nil => simp [sortRuns, groupRuns, List.orderedInsert, List.insertionSort]
    | cons b S1 =>
      have hlen1 : S1.length ≤ n := by
        simp only [List.length_cons] at hlen
        omega
      have hs1 : List.Pairwise (keyLe k rev) S1 := (List.pairwise_cons.mp hs).2
      have hble : ∀ y ∈ S1, keyLe k rev b y := (List.pairwise_cons.mp hs).1
      by_cases hab : keyLe k rev a b
      · simp only [List.orderedInsert, if_pos hab]
        by_cases hk : k a = k b
        · have hgr_a := groupRuns_cons_eq k (b :: S1) a
          have hpred : (fun x => decide (k x = k a)) = (fun x => decide (k x = k b)) := by
            funext z; rw [hk]
          rw [hpred] at hgr_a
          have htw : (b :: S1).takeWhile (fun x => decide (k x = k b)) =
              b :: S1.takeWhile (fun x => decide (k x = k b)) := by
            simp [List.takeWhile_cons]
          have hdw : (b :: S1).dropWhile (fun x => decide (k x = k b)) =
              S1.dropWhile (fun x => decide (k x = k b)) := by
            simp [List.dropWhile_cons]
          rw [htw, hdw] at hgr_a
          have hgr_b := groupRuns_cons_eq k S1 b
          have hiff : ∀ c ∈ List.insertionSort s
              (b :: S1.takeWhile (fun x => decide (k x = k b))),
              lexCons k rev s a c ↔ s a c := by
            intro c hc
            have hcmem : c ∈ b :: S1.takeWhile (fun x => decide (k x = k b)) :=
              (List.perm_insertionSort s _).mem_iff.mp hc
            have hkc : k c = k b := by
              rcases List.mem_cons.mp hcmem with rfl | hct
              · rfl
              · simpa using List.mem_takeWhile_imp hct
            have hkac : k a = k c := hk.trans hkc.symm
            constructor
            · intro h
              rcases h with h | ⟨-, h⟩
              · exact absurd hkac (strictKey_ne k rev h)
              · exact h
            · intro h
              exact Or.inr ⟨hkac, h⟩
          have hys : ∀ c ∈ ((groupRuns k (S1.dropWhile (fun x => decide (k x = k b)))).map
              (List.insertionSort s)).flatten, lexCons k rev s a c := by
            intro c hc
            have hcDW : c ∈ S1.dropWhile (fun x => decide (k x = k b)) :=
              mem_sortRuns_imp k s _ c hc
            have hbc : strictKey k rev b c := strict_after_dropWhile k rev S1 b hs c hcDW
            exact Or.inl ((strictKey_congr_left k rev hk).mpr hbc)
          simp only [sortRuns, hgr_a, hgr_b, List.map_cons, List.flatten_cons]
          rw [orderedInsert_append_congr (lexCons k rev s) s a _ _ hiff hys]
          rfl
        · have hgr_a := groupRuns_cons_eq k (b :: S1) a
          have hka : ¬ k b = k a := fun hc => hk hc.symm
          have htw : (b :: S1).takeWhile (fun x => decide (k x = k a)) = [] := by
            simp [List.takeWhile_cons, hka]
          have hdw : (b :: S1).dropWhile (fun x => decide (k x = k a)) = b :: S1 := by
            simp [List.dropWhile_cons, hka]
          rw [htw, hdw] at hgr_a
          have hall : ∀ c ∈ sortRuns k s (b :: S1), lexCons k rev s a c := by
            intro c hc
            have hcS : c ∈ b :: S1 := mem_sortRuns_imp k s (b :: S1) c hc
            have hstrict_ab : strictKey k rev a b := strictKey_of_keyLe_of_ne k rev hab hk
            rcases List.mem_cons.mp hcS with rfl | hct
            · exact Or.inl hstrict_ab
            · exact Or.inl (strictKey_trans_keyLe k rev hstrict_ab (hble c hct))
          have hfront := orderedInsert_front (lexCons k rev s) a (sortRuns k s (b :: S1)) hall
          calc sortRuns k s (a :: b :: S1)
              = List.insertionSort s [a] ++ sortRuns k s (b :: S1) := by
                simp only [sortRuns, hgr_a, List.map_cons, List.flatten_cons]
            _ = a :: sortRuns k s (b :: S1) := by
                simp [List.insertionSort, List.orderedInsert]
            _ = List.orderedInsert (lexCons k rev s) a (sortRuns k s (b :: S1)) := hfront.symm
      · simp only [List.orderedInsert, if_neg hab]
        have hstrict_ba : strictKey k rev b a := strictKey_of_not_keyLe k rev hab
        have hka : k a ≠ k b := fun hc => (strictKey_ne k rev hstrict_ba) hc.symm
        have hskip : ∀ x ∈ S1.takeWhile (fun x => decide (k x = k b)), ¬ keyLe k rev a x := by
          intro x hx hc
          have hkx : k x = k b := by simpa using List.mem_takeWhile_imp hx
          apply hab
          cases rev <;> simp [keyLe] at hc ⊢ <;> rw [← hkx] <;> exact hc
        have hsplit : S1.takeWhile (fun x => decide (k x = k b)) ++
            S1.dropWhile (fun x => decide (k x = k b)) = S1 :=
          List.takeWhile_append_dropWhile _ _
        have hoi : List.orderedInsert (keyLe k rev) a S1 =
            S1.takeWhile (fun x => decide (k x = k b)) ++
              List.orderedInsert (keyLe k rev) a
                (S1.dropWhile (fun x => decide (k x = k b))) := by
          conv_lhs => rw [← hsplit]
          exact orderedInsert_all_skip (keyLe k rev) a _ _ hskip
        have hpa : (fun x => decide (k x = k b)) a = false := by simp [hka]
        have htwN : (S1.dropWhile (fun x => decide (k x = k b))).takeWhile
            (fun x => decide (k x = k b)) = [] := takeWhile_of_dropWhile_self _ _
        have htwOI : (List.orderedInsert (keyLe k rev) a
            (S1.dropWhile (fun x => decide (k x = k b)))).takeWhile
            (fun x => decide (k x = k b)) = [] :=
          takeWhile_orderedInsert_nil _ _ a hpa _ htwN
        have hdwOI : (List.orderedInsert (keyLe k rev) a
            (S1.dropWhile (fun x => decide (k x = k b)))).dropWhile
            (fun x => decide (k x = k b)) =
            List.orderedInsert (keyLe k rev) a (S1.dropWhile (fun x => decide (k x = k b))) :=
          dropWhile_of_takeWhile_nil _ _ htwOI
        have htwall : ∀ x ∈ S1.takeWhile (fun x => decide (k x = k b)),
            decide (k x = k b) = true := by
          intro x hx
          have h2 := List.mem_takeWhile_imp hx
          exact h2
        have hgr : groupRuns k (b :: (S1.takeWhile (fun x => decide (k x = k b)) ++
            List.orderedInsert (keyLe k rev) a (S1.dropWhile (fun x => decide (k x = k b))))) =
            (b :: S1.takeWhile (fun x => decide (k x = k b))) ::
              groupRuns k (List.orderedInsert (keyLe k rev) a
                (S1.dropWhile (fun x => decide (k x = k b)))) := by
          rw [groupRuns_cons_eq]
          rw [takeWhile_append_all _ _ _ htwall, htwOI]
          rw [dropWhile_append_all _ _ _ htwall, hdwOI]
          simp only [List.append_nil]
        have hgr_b := groupRuns_cons_eq k S1 b
        have hdw_sub : List.Sublist (S1.dropWhile (fun x => decide (k x = k b))) S1 :=
          List.dropWhile_sublist _
        have hIH := ih (S1.dropWhile (fun x => decide (k x = k b)))
          (le_trans hdw_sub.length_le hlen1) (hs1.sublist hdw_sub)
        have hskip2 : ∀ c ∈ List.insertionSort s
            (b :: S1.takeWhile (fun x => decide (k x = k b))), ¬ lexCons k rev s a c := by
          intro c hc hlex
          have hcmem : c ∈ b :: S1.takeWhile (fun x => decide (k x = k b)) :=
            (List.perm_insertionSort s _).mem_iff.mp hc
          have hkc : k c = k b := by
            rcases List.mem_cons.mp hcmem with rfl | hct
            · rfl
            · simpa using List.mem_takeWhile_imp hct
          rcases hlex with h | ⟨h, -⟩
          · exact strictKey_asymm k rev hstrict_ba
              ((strictKey_congr_right k rev hkc.symm).mpr h)
          · exact hka (h.trans hkc)
        rw [hoi]
        simp only [sortRuns, hgr, hgr_b, List.map_cons, List.flatten_cons]
        rw [orderedInsert_all_skip (lexCons k rev s) a _ _ hskip2]
        have hIH2 : ((groupRuns k (List.orderedInsert (keyLe k rev) a
            (S1.dropWhile (fun x => decide (k x = k b))))).map (List.insertionSort s)).flatten =
            List.orderedInsert (lexCons k rev s) a
              (((groupRuns k (S1.dropWhile (fun x => decide (k x = k b)))).map
                (List.insertionSort s)).flatten) := hIH
        rw [hIH2]

theorem sortRuns_insertionSort {α κ : Type} [LinearOrder κ] (k : α → κ) (rev : Bool)
    (s : α → α → Prop) [DecidableRel s] :
    ∀ l : List α, sortRuns k s (List.insertionSort (keyLe k rev) l) =
      List.insertionSort (lexCons k rev s) l := by
  intro l
  induction l with
  | nil => rfl
  | cons a l ih =>
    have hsorted : List.Pairwise (keyLe k rev) (List.insertionSort (keyLe k rev) l) :=
      List.sorted_insertionSort (keyLe k rev) l
    calc sortRuns k s (List.insertionSort (keyLe k rev) (a :: l))
        = sortRuns k s (List.orderedInsert (keyLe k rev) a
            (List.insertionSort (keyLe k rev) l)) := rfl
      _ = List.orderedInsert (lexCons k rev s) a
            (sortRuns k s (List.insertionSort (keyLe k rev) l)) :=
          sortRuns_orderedInsert k rev s a (List.insertionSort (keyLe k rev) l).length _
            le_rfl hsorted
      _ = List.orderedInsert (lexCons k rev s) a (List.insertionSort (lexCons k rev s) l) := by
          rw [ih]
      _ = List.insertionSort (lexCons k rev s) (a :: l) := rfl

theorem multikey_sortAux_eq {α κ : Type} [LinearOrder κ] :
    ∀ (krs : List ((α → κ) × Bool)), krs ≠ [] →
      ∀ l : List α, multikey_sortAux krs l = List.insertionSort (lexLe krs) l := by
  intro krs
  induction krs with
  | nil => intro h; exact absurd rfl h
  | cons kr rest ih =>
    intro _ l
    obtain ⟨k, rev⟩ := kr
    cases rest with
    | nil =>
      show sort_slice k rev l = _
      unfold sort_slice
      apply insertionSort_congr_rel
      intro a b
      constructor
      · intro h
        by_cases hk : k a = k b
        · exact Or.inr ⟨hk, trivial⟩
        · exact Or.inl (strictKey_of_keyLe_of_ne k rev h hk)
      · intro h
        rcases h with h | ⟨h, -⟩
        · cases rev <;> simp [strictKey] at h <;> simp [keyLe] <;> exact le_of_lt h
        · exact keyLe_of_key_eq k rev h
    | cons kr2 rest2 =>
      have hrec : ∀ run, multikey_sortAux (kr2 :: rest2) run =
          List.insertionSort (lexLe (kr2 :: rest2)) run := ih (by simp)
      show runsGo (fun run => multikey_sortAux (kr2 :: rest2) run)
          (groupRuns k (sort_slice k rev l)) = _
      rw [runsGo_eq_flatten_map (fun run => multikey_sortAux (kr2 :: rest2) run)
            (List.insertionSort (lexLe (kr2 :: rest2))) hrec
            (fun r hr => insertionSort_short _ r hr) (groupRuns k (sort_slice k rev l))]
      have hshape : ((groupRuns k (sort_slice k rev l)).map
            (List.insertionSort (lexLe (kr2 :: rest2)))).flatten =
          sortRuns k (lexLe (kr2 :: rest2)) (List.insertionSort (keyLe k rev) l) := rfl
      rw [hshape, sortRuns_insertionSort]
      rfl

/-- C9: for every list, every non-empty list of key functions and every
per-key direction list (or an omitted one), `multikey_sort` permutes the
list into exactly the order of a single stable sort by the lexicographic
tuple of all keys, key `i` taken in direction `i`; it preserves the
multiset of elements and is a no-op for an empty key list or an empty
input list. -/
theorem multikey_sort_refines_lex {α κ : Type} [LinearOrder κ]
    (lst : List α) (keys : List (α → κ)) (reverses : List Bool)
    (hlen : reverses = [] ∨ reverses.length = keys.length) :
    multikey_sort lst keys reverses =
        List.insertionSort (lexLe (keys.zip (effReverses keys.length reverses))) lst
      ∧ (multikey_sort lst keys reverses).Perm lst
      ∧ ((keys = [] ∨ lst = []) → multikey_sort lst keys reverses = lst) := by
  have hmain : multikey_sort lst keys reverses =
      List.insertionSort (lexLe (keys.zip (effReverses keys.length reverses))) lst := by
    cases keys with
    | nil =>
      cases lst with
      | nil => rfl
      | cons y ys =>
        have htriv : List.insertionSort
            (lexLe (([] : List (α → κ)).zip (effReverses 0 reverses))) (y :: ys) =
            y :: ys :=
          insertionSort_of_all_rel _ (y :: ys) (fun a _ b _ => trivial)
        exact htriv.symm
    | cons k0 ks =>
      cases lst with
      | nil => cases reverses <;> rfl
      | cons x0 xs =>
        have hrevne : effReverses (k0 :: ks).length reverses ≠ [] := by
          cases reverses with
          | nil => simp [effReverses]
          | cons r rs => simp [effReverses]
        obtain ⟨r0, rs, hr⟩ := List.exists_cons_of_ne_nil hrevne
        show multikey_sortAux ((k0 :: ks).zip (effReverses (k0 :: ks).length reverses))
            (x0 :: xs) = _
        apply multikey_sortAux_eq
        rw [hr]
        simp
  refine ⟨hmain, ?_, ?_⟩
  · rw [hmain]
    exact List.perm_insertionSort _ lst
  · intro h
    rcases h with h | h
    · subst h; cases lst <;> rfl
    · subst h; cases keys <;> rfl

/-- Concrete check of the C9 equivalence: two keys (value modulo 3
ascending, then the value itself descending) over a five-element list,
with an explicit direction list of matching length. -/
theorem multikey_sort_refines_lex_witness :
    multikey_sort [5, 2, 8, 1, 3] [fun x : Nat => x % 3, fun x : Nat => x] [false, true] =
        List.insertionSort
          (lexLe ([fun x : Nat => x % 3, fun x : Nat => x].zip
            (effReverses [fun x : Nat => x % 3, fun x : Nat => x].length [false, true])))
          [5, 2, 8, 1, 3]
      ∧ (multikey_sort [5, 2, 8, 1, 3]
          [fun x : Nat => x % 3, fun x : Nat => x] [false, true]).Perm [5, 2, 8, 1, 3]
      ∧ (([fun x : Nat => x % 3, fun x : Nat => x] = ([] : List (Nat → Nat)) ∨
            [5, 2, 8, 1, 3] = ([] : List Nat)) →
          multikey_sort [5, 2, 8, 1, 3] [fun x : Nat => x % 3, fun x : Nat => x]
            [false, true] = [5, 2, 8, 1, 3]) :=
  multikey_sort_refines_lex [5, 2, 8, 1, 3] [fun x : Nat => x % 3, fun x : Nat => x]
    [false, true] (Or.inr rfl)
